import Mathlib

/-!
Verification of the placeholder-resolution and in-place stamping engine of the
AHS-Signatures repository (the backend PDF service).  The engine operates on
raw PDF bytes with regular expressions; this development embeds it shallowly
at the lexical level: a document is a list of numbered objects, a stream's
decompressed content is a list of content-stream chunks (text-positioning
operators, show-text strings, transformation operators, draw operators), and a
tag occurrence is a structured value carrying exactly the capture groups of
the two tag grammars.  Every definition mirrors a function of the engine
source (`pdf.service.ts`); the doc comments cite the mirrored function.
Coordinates are rationals (the source parses them with `parseFloat`; all
comparisons and sums performed by the source are exact on the decimal literals
involved, so ℚ is a faithful carrier).
-/

namespace AHS

/-- Kind of a placeholder tag: the three alternatives of the bracket grammar
`[[(SIGNATURE|DATE|TEXT):...]]` and the classified placeholder type. -/
inductive TagKind
  | SIGNATURE
  | DATE
  | TEXT
deriving DecidableEq, Repr

/-- Render of a `TagKind`, as it appears in the bracket grammar. -/
def kindName : TagKind → String
  | .SIGNATURE => "SIGNATURE"
  | .DATE => "DATE"
  | .TEXT => "TEXT"

/-- A tag occurrence, structured by grammar.  `bracket kind ident` stands for
the text `[[KIND:ident]]` (the scanner pattern `\[\[(SIGNATURE|DATE|TEXT):[^\]]+\]\]`);
`brace star pre post` stands for `\x7b\x7b`, an optional `*`, `pre`, the literal
`_es_:`, `post`, `\x7d\x7d` (the scanner pattern `\{\{\*?[^\}]+_es_:[^\}]*\}\}`,
whose greedy split puts the text before the last `_es_:` into `pre`). -/
inductive Tag
  | bracket (kind : TagKind) (ident : String)
  | brace (star : Bool) (pre : String) (post : String)
deriving DecidableEq, Repr

/-- The raw text of a tag occurrence (what the scanner's regular expression
matched). -/
def tagString : Tag → String
  | .bracket k i => "[[" ++ kindName k ++ ":" ++ i ++ "]]"
  | .brace star pre post =>
      "\x7b\x7b" ++ (if star then "*" else "") ++ pre ++ "_es_:" ++ post ++ "\x7d\x7d"

/-- Does the tag come from the brace grammar? -/
def Tag.isBrace : Tag → Bool
  | .brace _ _ _ => true
  | .bracket _ _ => false

/-- Does the tag come from the bracket grammar? -/
def Tag.isBracket : Tag → Bool
  | .bracket _ _ => true
  | .brace _ _ _ => false

/-- A word character in the sense of the JavaScript regex class `\w`. -/
def isWordChar (c : Char) : Bool := c.isAlphanum || c = '_'

/-- Every character of `s` is a word character (the regex `\w*`). -/
def wordRun (s : String) : Bool := s.toList.all isWordChar

/-- Every character of `s` is a digit (the regex `\d*`). -/
def digitRun (s : String) : Bool := s.toList.all Char.isDigit

/-- List-level check that the second list begins with the first (the needle). -/
def startsWithL : List Char → List Char → Bool
  | [], _ => true
  | _ :: _, [] => false
  | a :: as, b :: bs => a == b && startsWithL as bs

/-- Substring test: does `hay` contain `needle` (JavaScript `String.includes`)? -/
def hasSubL (needle : List Char) : List Char → Bool
  | [] => startsWithL needle []
  | c :: rest => startsWithL needle (c :: rest) || hasSubL needle rest

/-- String-level substring test, mirroring `tag.includes(...)` in the source. -/
def containsSub (hay needle : String) : Bool := hasSubL needle.toList hay.toList

/-- String prefix test (`String.startsWith`), over the character list so that
it evaluates by kernel reduction. -/
def strStartsWith (s pre : String) : Bool := startsWithL pre.toList s.toList

/-- String suffix test (`String.endsWith`). -/
def strEndsWith (s suf : String) : Bool := startsWithL suf.toList.reverse s.toList.reverse

/-- Length of a string in characters. -/
def strLen (s : String) : Nat := s.toList.length

/-- Drop the first `n` characters (`String.drop`). -/
def strDrop (s : String) (n : Nat) : String := ⟨s.toList.drop n⟩

/-- Drop the last `n` characters (`String.dropRight`). -/
def strDropRight (s : String) (n : Nat) : String := ⟨s.toList.take (s.toList.length - n)⟩

/-- Lower-case a string (`String.toLowerCase` in JavaScript). -/
def strToLower (s : String) : String := ⟨s.toList.map Char.toLower⟩

/-- The longest prefix of characters satisfying `p` (`String.takeWhile`). -/
def strTakeWhile (s : String) (p : Char → Bool) : String := ⟨s.toList.takeWhile p⟩

/-- Strip the suffix `suf` from `s` when present. -/
def stripSuffix (s suf : String) : Option String :=
  if strEndsWith s suf then some (strDropRight s (strLen suf)) else none

/-- Addition of rational coordinates.  This is provably equal to `Rat.add`
(theorem `qadd_eq_add` below); it is spelled out through `mkRat` so that it
evaluates by kernel reduction on concrete inputs. -/
def qadd (a b : ℚ) : ℚ := mkRat (a.num * b.den + b.num * a.den) (a.den * b.den)

/-- Result of classifying a raw tag: the placeholder type, role and optional
field name (`parseTag` / `parseTagInfo` in the source). -/
structure ParsedTag where
  type : TagKind
  role : String
  fieldName : Option String
deriving DecidableEq, Repr

/-- Classification of a bracket tag, mirroring the source's `customMatch` case
`tag.match(/\[\[(SIGNATURE|DATE|TEXT):([^\]]+)\]\])/`: the identifier capture
must be a non-empty run without `]`; `TEXT` tags get the catch-all role
`signer` and the identifier as field name, `SIGNATURE`/`DATE` get the
identifier as role. -/
def parseBracket (k : TagKind) (ident : String) : Option ParsedTag :=
  if ident != "" && !(ident.toList.contains ']') then
    some ⟨k, if k = .TEXT then "signer" else ident,
          if k = .TEXT then some ident else none⟩
  else none

/-- The `sigMatch` case `\{\{\*?Sig\d*_es_:(\w+):signature\}\}`: `pre` must be
`Sig` followed by digits, `post` must be a non-empty word run followed by
`:signature`; the word run is the role. -/
def sigCase (pre post : String) : Option String :=
  if strStartsWith pre "Sig" && digitRun (strDrop pre 3) then
    match stripSuffix post ":signature" with
    | some w => if w != "" && wordRun w then some w else none
    | none => none
  else none

/-- The shape test for the `dateMatch` alternation `(?:Date\w*|Dte\d*)`. -/
def datePre (pre : String) : Bool :=
  (strStartsWith pre "Date" && wordRun (strDrop pre 4)) ||
  (strStartsWith pre "Dte" && digitRun (strDrop pre 3))

/-- The `(\w+)?(?::date)?` tail of the `dateMatch` pattern applied to `post`:
returns the (possibly empty) role capture when the whole of `post` is
consumed, and `none` when the pattern cannot reach the closing braces. -/
def dateRolePart (post : String) : Option String :=
  match stripSuffix post ":date" with
  | some r => if wordRun r then some r else none
  | none => if wordRun post then some post else none

/-- The `initMatch` case `\{\{\*?Int\d*_es_:(\w+)(?::initials)?\}\}/i`
(case-insensitive): returns the role capture. -/
def initCase (pre post : String) : Option String :=
  if strStartsWith (strToLower pre) "int" && digitRun (strDrop pre 3) then
    match stripSuffix (strToLower post) ":initials" with
    | some _ =>
        let w := strDropRight post (strLen ":initials")
        if w != "" && wordRun w then some w else none
    | none => if post != "" && wordRun post then some post else none
  else none

/-- The `textMatch` case `\{\{\*?([^_]+)_es_:(\w+)(?::[^\}]*)?\}\}` applied to
a structured brace tag: `pre` (the `[^_]+` capture) must be non-empty and
underscore-free, and `post` must be a non-empty word run `w` optionally
followed by `:` and arbitrary brace-free text.  Returns the role capture `w`. -/
def textCase (pre post : String) : Option String :=
  if pre != "" && !(pre.toList.contains '_') then
    let w := strTakeWhile post isWordChar
    if w != "" && (strDrop post (strLen w) == "" || strStartsWith (strDrop post (strLen w)) ":") then
      some w
    else none
  else none

/-- Classification of a brace tag, mirroring the brace cases of the source's
`parseTag` in their source order (`sigMatch`, `dateMatch`, `initMatch`,
`textMatch`); the `dateMatch` case keeps the source's extra
`tag.toLowerCase().includes('date'/'dte')` guard and its role fallback
`'signer'` (also used when the role capture literally reads `date`), and the
`textMatch` case keeps the source's exclusion filters for `:signature`/`:date`
suffixes and `Sig`/`Date`/`Dte` field-name prefixes. -/
def parseBrace (star : Bool) (pre post : String) : Option ParsedTag :=
  match sigCase pre post with
  | some role => some ⟨.SIGNATURE, role, none⟩
  | none =>
    let ts := tagString (.brace star pre post)
    if datePre pre && (dateRolePart post).isSome &&
        (containsSub (strToLower ts) "date" || containsSub (strToLower ts) "dte") then
      let r := (dateRolePart post).getD ""
      some ⟨.DATE, if r != "" && r != "date" then r else "signer", some pre⟩
    else
      match initCase pre post with
      | some role => some ⟨.TEXT, role, some "Int"⟩
      | none =>
        match textCase pre post with
        | some role =>
            if containsSub ts ":signature" || containsSub ts ":date" then none
            else if strStartsWith pre "Sig" || strStartsWith pre "Date" || strStartsWith pre "Dte" then none
            else some ⟨.TEXT, role, some pre⟩
        | none => none

/-- The tag classifier used by the parse pipeline (`parseTag` in
`parseTemplatePlaceholders`).  The source tries the bracket grammar first and
the four brace cases afterwards; on structured tags the two grammar families
are disjoint, so the case order across families cannot change the result. -/
def parseTag : Tag → Option ParsedTag
  | .bracket k i => parseBracket k i
  | .brace star pre post => parseBrace star pre post

/-- The tag classifier used by the stamping pipeline (`parseTagInfo`).  Its
source tries the brace cases first and the bracket grammar last; on structured
tags this coincides with `parseTag` because the grammar families are disjoint. -/
def parseTagInfo (t : Tag) : Option ParsedTag := parseTag t

/-- A lexical piece of show-text or loose stream text: inert text or a tag
occurrence.  Inert text never matches a tag pattern (tags are atomic in the
embedding). -/
inductive Piece
  | txt (s : String)
  | tag (t : Tag)
deriving DecidableEq, Repr

/-- The rendered (escape-decoded) text of a piece. -/
def pieceText : Piece → String
  | .txt s => s
  | .tag t => tagString t

/-- The rendered text of a parenthesized show string. -/
def piecesText (ps : List Piece) : String := String.join (ps.map pieceText)

/-- Project a piece to its tag, if any. -/
def pieceTag : Piece → Option Tag
  | .tag t => some t
  | .txt _ => none

/-- The tag occurrences of a piece list, in text order. -/
def pieceTags (ps : List Piece) : List Tag := ps.filterMap pieceTag

/-- A lexical chunk of a decompressed content stream, covering exactly the
operators the source's regular expressions look at: text matrices
(`a b c d e f Tm`), text displacements (`tx ty Td` / `tx ty TD` — the source
pattern is `T[dD]`), transformation matrices (`a b c d e f cm`), state
save/restore (`q` / `Q`), colour (`r g b rg`), draw operators (`/Name Do`),
single show strings (`(text) Tj`), array show strings (`[...] TJ`, kerning
numbers dropped as the source only concatenates the strings), and loose text
outside any show operator. -/
inductive Chunk
  | tm (a b c d e f : ℚ)
  | td (tx ty : ℚ)
  | cm (a b c d e f : ℚ)
  | qSave
  | qRestore
  | rg (r g b : ℚ)
  | doDraw (name : String)
  | tj (pieces : List Piece)
  | tJ (parts : List (List Piece))
  | raw (pieces : List Piece)
deriving DecidableEq, Repr

/-- The tag occurrences appearing in a chunk's rendered text. -/
def chunkTags : Chunk → List Tag
  | .tj ps => pieceTags ps
  | .tJ parts => (parts.map pieceTags).flatten
  | .raw ps => pieceTags ps
  | _ => []

/-- All tag occurrences of a stream's decompressed text, in text order. -/
def streamTags (chunks : List Chunk) : List Tag := (chunks.map chunkTags).flatten

/-- A stream payload of a numbered PDF object.  `chunks` is its decompressed
content (identical to the literal content when inflation fails, which is what
both the scanner's and the placement locator's fallback produce); `big`
records whether the raw payload exceeds the source's 500000-byte guard;
`compressed` records whether `zlib.inflateSync` succeeds on the raw bytes, so
`compressed = false` streams carry their content literally in the flat byte
view of the document. -/
structure StreamData where
  chunks : List Chunk
  big : Bool
  compressed : Bool
deriving DecidableEq, Repr

/-- A numbered PDF object, carrying the outcomes of the source's dictionary
tests: `hasContents` is `includes('/Contents')`, `hasMediaBox` is
`includes('/MediaBox') || includes('/CropBox')`, `isTypePage` is
`includes('/Type') && includes('/Page') && !includes('/Pages')`, `hasParent`
is `includes('/Parent')`; `contentsRefs` are the object ids extracted from
`/Contents` (single reference or array), `inlineXObjects` the entries of the
first `/XObject <<...>>` dictionary inside the object's dictionary,
`resourcesRef` a `/Resources N 0 R` reference, `xobjectRef` a
`/XObject N 0 R` reference, and `refEntries` every `/Name N 0 R` pair of the
dictionary (the source's `entryRegex`). -/
structure PdfObj where
  objNum : Nat
  hasContents : Bool
  hasMediaBox : Bool
  isTypePage : Bool
  hasParent : Bool
  contentsRefs : List Nat
  inlineXObjects : List (String × Nat)
  resourcesRef : Option Nat
  xobjectRef : Option Nat
  refEntries : List (String × Nat)
  stream : Option StreamData
deriving DecidableEq, Repr

/-- A document: its numbered objects in byte order and every
`/XObject <<...>>` dictionary occurrence in byte order. -/
structure Doc where
  objects : List PdfObj
  xobjectDicts : List (List (String × Nat))
deriving DecidableEq, Repr

/-- JavaScript `Map.set`: overwrite in place when the key exists, append
otherwise (preserving first-insertion iteration order). -/
def mset [DecidableEq κ] : List (κ × α) → κ → α → List (κ × α)
  | [], k, v => [(k, v)]
  | (k', v') :: rest, k, v => if k' = k then (k, v) :: rest else (k', v') :: mset rest k v

/-- JavaScript `Map.get`. -/
def mget [DecidableEq κ] (l : List (κ × α)) (k : κ) : Option α :=
  (l.find? (fun p => p.1 == k)).map (·.2)

/-- The page-classification heuristic of `buildPageMaps` (source lines
603-608): `/Contents` plus one of `/MediaBox`-or-`/CropBox`, `/Type /Page`,
or `/Parent`. -/
def isPageObj (o : PdfObj) : Bool :=
  o.hasContents && (o.hasMediaBox || o.isTypePage || o.hasParent)

/-- The three structural maps produced by `buildPageMaps`. -/
structure PageMaps where
  pageObjToIndex : List (Nat × Nat)
  streamToPageObj : List (Nat × Nat)
  streamToPageIndex : List (Nat × Nat)
deriving DecidableEq, Repr

/-- The source's `buildPageMaps`: collect the page objects with at least one
content reference, sort them by ascending object number (JavaScript's stable
sort with comparator `a.objNum - b.objNum`), and index pages and their content
streams. -/
def buildPageMaps (doc : Doc) : PageMaps :=
  let pageObjects := (doc.objects.filter (fun o => isPageObj o && !o.contentsRefs.isEmpty)).map
      (fun o => (o.objNum, o.contentsRefs))
  let sorted := List.insertionSort (fun a b => a.1 ≤ b.1) pageObjects
  let indexed := sorted.enum
  { pageObjToIndex := indexed.foldl (fun m p => mset m p.2.1 p.1) []
    streamToPageObj := indexed.foldl (fun m p => p.2.2.foldl (fun m r => mset m r p.2.1) m) []
    streamToPageIndex := indexed.foldl (fun m p => p.2.2.foldl (fun m r => mset m r p.1) m) [] }

/-- Normalize a raw dictionary entry list into JavaScript `Map` semantics:
later entries with the same name overwrite earlier ones. -/
def dictMap (entries : List (String × Nat)) : List (String × Nat) :=
  entries.foldl (fun m e => mset m e.1 e.2) []

/-- Look up an object by number; the source's `findObjDict` takes the first
match in byte order. -/
def findObj (doc : Doc) (n : Nat) : Option PdfObj :=
  doc.objects.find? (fun o => o.objNum == n)

/-- The source's `findXObjectMappings` (global fallback map): record every
name-to-id pair of every `/XObject` dictionary, collecting the distinct ids
per name in first-seen order. -/
def findXObjectMappings (doc : Doc) : List (String × List Nat) :=
  doc.xobjectDicts.foldl (fun m entries =>
    entries.foldl (fun m e =>
      let existing := (mget m e.1).getD []
      if e.2 ∈ existing then m else mset m e.1 (existing ++ [e.2])) m) []

/-- The source's `findXObjectMappingsPerPage`: for every object passing the
page heuristic, merge the entries of its inline `/XObject` dictionary, then
of the dictionary referenced by `/Resources N 0 R`, then of the dictionary
referenced by a further `/XObject N 0 R` inside those resources; pages whose
merged map is empty are not recorded. -/
def findXObjectMappingsPerPage (doc : Doc) : List (Nat × List (String × Nat)) :=
  doc.objects.foldl (fun per o =>
    if (o.hasMediaBox || o.isTypePage || o.hasParent) && o.hasContents then
      let pm := o.inlineXObjects.foldl (fun m e => mset m e.1 e.2) []
      let pm := match o.resourcesRef with
        | none => pm
        | some rn =>
          match findObj doc rn with
          | none => pm
          | some res =>
            let pm := res.inlineXObjects.foldl (fun m e => mset m e.1 e.2) pm
            match res.xobjectRef with
            | none => pm
            | some xn =>
              match findObj doc xn with
              | none => pm
              | some xobj => xobj.refEntries.foldl (fun m e => mset m e.1 e.2) pm
      if !pm.isEmpty then mset per o.objNum pm else per
    else per) []

/-- Where a Form XObject is drawn: page index and the translation components
of the `cm` matrix preceding its `Do` operator. -/
structure Placement where
  pageIndex : Nat
  x : ℚ
  y : ℚ
deriving DecidableEq, Repr

/-- Matches of the first `Do` pattern of `findXObjectPlacements`
(`... cm /Name Do` — a `cm` operator directly followed by a draw operator),
yielding the matrix's 5th and 6th operands and the name; the scan resumes
after each match, like a global regex. -/
def doOpsP1 : List Chunk → List (ℚ × ℚ × String)
  | .cm _ _ _ _ e f :: .doDraw n :: rest => (e, f, n) :: doOpsP1 rest
  | _ :: rest => doOpsP1 rest
  | [] => []

/-- Matches of the second `Do` pattern (`q ... cm /Name Do`); every such match
is also a match of the first pattern, mirroring the duplicate pushes of the
source. -/
def doOpsP2 : List Chunk → List (ℚ × ℚ × String)
  | .qSave :: .cm _ _ _ _ e f :: .doDraw n :: rest => (e, f, n) :: doOpsP2 rest
  | _ :: rest => doOpsP2 rest
  | [] => []

/-- All collected `Do` operators of a stream, first pattern's matches first. -/
def doOps (chunks : List Chunk) : List (ℚ × ℚ × String) :=
  doOpsP1 chunks ++ doOpsP2 chunks

/-- Every `/XObject` dictionary of the document as a name-to-id map, skipping
empty ones — the `allXobjectDicts` list the placement locator resolves names
against. -/
def allXobjectDicts (doc : Doc) : List (List (String × Nat)) :=
  (doc.xobjectDicts.map dictMap).filter (fun d => !d.isEmpty)

/-- The stream payload of object `n` (the locator's content-stream lookup). -/
def findObjStream (doc : Doc) (n : Nat) : Option StreamData :=
  (findObj doc n).bind (fun o => o.stream)

/-- The source's `findXObjectPlacements`.  Note that, exactly as in the
source, the scoped `perPageMappings` and the `globalXobjectMap` parameters are
accepted but never consulted: every `Do` operator's name is resolved against
every `/XObject` dictionary of the whole document, and each resolved object id
that has no placement yet receives the operator's coordinates (first placement
per id wins). -/
def findXObjectPlacements (doc : Doc) (pageObjToIndex streamToPageObj : List (Nat × Nat))
    (perPageMappings : List (Nat × List (String × Nat)))
    (globalXobjectMap : List (String × List Nat)) : List (Nat × Placement) :=
  let dicts := allXobjectDicts doc
  streamToPageObj.foldl (fun placements p =>
    let pageIndex := (mget pageObjToIndex p.2).getD 0
    match findObjStream doc p.1 with
    | none => placements
    | some sd =>
      (doOps sd.chunks).foldl (fun pl op =>
        dicts.foldl (fun pl dict =>
          match mget dict op.2.2 with
          | some objNum =>
              if (mget pl objNum).isSome then pl else mset pl objNum ⟨pageIndex, op.1, op.2.1⟩
          | none => pl) pl) placements) []

/-- One result of `extractTagPositionsFromStream`: the rendered show-text and
the resolved coordinates. -/
structure TagPos where
  text : String
  x : ℚ
  y : ℚ
deriving DecidableEq, Repr

/-- The last `Tm` operator of a chunk list, returning its translation
components and the chunks following it. -/
def lastTmSplit : List Chunk → Option (ℚ × ℚ × List Chunk)
  | [] => none
  | c :: rest =>
    match lastTmSplit rest with
    | some r => some r
    | none =>
      match c with
      | .tm _ _ _ _ e f => some (e, f, rest)
      | _ => none

/-- Cumulative sum of all `Td`/`TD` displacements of a chunk list. -/
def tdSum (l : List Chunk) : ℚ × ℚ :=
  l.foldl (fun s c => match c with
    | .td tx ty => (qadd s.1 tx, qadd s.2 ty)
    | _ => s) (0, 0)

/-- The translation components of the last `cm` operator of a chunk list. -/
def lastCm : List Chunk → Option (ℚ × ℚ)
  | [] => none
  | c :: rest =>
    match lastCm rest with
    | some r => some r
    | none =>
      match c with
      | .cm _ _ _ _ e f => some (e, f)
      | _ => none

/-- Position assigned to a `Tj` match by method 1 of
`extractTagPositionsFromStream` (source lines 257-308): the last `Tm`'s
translation, plus the `Td`/`TD` sums after that `Tm`, overridden by the last
`cm`'s translation when the x so far is small (`x === 0 || Math.abs(x) < 50`)
and the `cm` translation is large (`cmX > 50 || cmY > 50`). -/
def method1Pos (before : List Chunk) : ℚ × ℚ :=
  let xy : ℚ × ℚ :=
    match lastTmSplit before with
    | some (e, f, after) => let d := tdSum after; (qadd e d.1, qadd f d.2)
    | none => (0, 0)
  match lastCm before with
  | some (ce, cf) =>
      if (xy.1 = 0 ∨ |xy.1| < 50) ∧ (50 < ce ∨ 50 < cf) then (ce, cf) else xy
  | none => xy

/-- Method 1 of `extractTagPositionsFromStream`: every `(text) Tj` whose
rendered text contains a tag yields its `method1Pos` position; `before` is the
stream prefix already scanned. -/
def extractM1 : List Chunk → List Chunk → List TagPos
  | _, [] => []
  | before, .tj ps :: rest =>
    (if !(pieceTags ps).isEmpty then
      let xy := method1Pos before
      [⟨piecesText ps, xy.1, xy.2⟩]
     else []) ++ extractM1 (before ++ [.tj ps]) rest
  | before, c :: rest => extractM1 (before ++ [c]) rest

/-- Position assigned to a `TJ` match by method 2 of
`extractTagPositionsFromStream` (source lines 330-340): the last `Tm`'s
translation only — no `Td` composition and no `cm` fallback in this method. -/
def m2Pos (before : List Chunk) : ℚ × ℚ :=
  match lastTmSplit before with
  | some (e, f, _) => (e, f)
  | none => (0, 0)

/-- Method 2 of `extractTagPositionsFromStream` (source lines 313-361): every
`[...] TJ` whose concatenated strings contain a tag and whose concatenated
text does not already appear in the accumulated results yields the last `Tm`'s
translation (no `Td` composition and no `cm` fallback in this method). -/
def extractM2 : List TagPos → List Chunk → List Chunk → List TagPos
  | _, _, [] => []
  | acc, before, .tJ parts :: rest =>
    let fullText := String.join (parts.map piecesText)
    if !(parts.map pieceTags).flatten.isEmpty &&
        (acc.find? (fun r => r.text == fullText)).isNone then
      let xy := m2Pos before
      ⟨fullText, xy.1, xy.2⟩ ::
        extractM2 (acc ++ [⟨fullText, xy.1, xy.2⟩]) (before ++ [.tJ parts]) rest
    else extractM2 acc (before ++ [.tJ parts]) rest
  | acc, before, c :: rest => extractM2 acc (before ++ [c]) rest

/-- The source's `extractTagPositionsFromStream`: method 1's results followed
by method 2's (method 2 deduplicates against everything already found). -/
def extractTagPositionsFromStream (chunks : List Chunk) : List TagPos :=
  let m1 := extractM1 [] chunks
  m1 ++ extractM2 m1 [] chunks

/-- An element of the source's `foundTags` array.  `String.match` without the
global flag returns the full match followed by the capture groups, so the
bracket pattern contributes both the matched tag and its kind capture (a bare
word such as `SIGNATURE` that matches neither grammar). -/
inductive Found
  | tag (t : Tag)
  | kindCapture (k : TagKind)
deriving DecidableEq, Repr

/-- The raw text of a `foundTags` element. -/
def foundString : Found → String
  | .tag t => tagString t
  | .kindCapture k => kindName k

/-- Classification of a `foundTags` element: a kind capture contains neither
grammar's delimiters, so `parseTag` rejects it. -/
def parseFound : Found → Option ParsedTag
  | .tag t => parseTag t
  | .kindCapture _ => none

/-- Result of `decompressedText.match(bracePattern)`. -/
def braceFound : Option Tag → List Found
  | some t => [.tag t]
  | none => []

/-- Result of `decompressedText.match(bracketPattern)`: full match plus the
kind capture group. -/
def bracketFound : Option Tag → List Found
  | some (Tag.bracket k i) => [.tag (Tag.bracket k i), .kindCapture k]
  | _ => []

/-- The `foundTags` array of `findTagLocations` (source lines 700-705): the
first brace-grammar match of the decompressed stream text, then the first
bracket-grammar match with its capture group. -/
def foundTagsOf (chunks : List Chunk) : List Found :=
  braceFound ((streamTags chunks).find? Tag.isBrace) ++
  bracketFound ((streamTags chunks).find? Tag.isBracket)

/-- The source's `TagLocation`: one resolved tag occurrence. -/
structure TagLocation where
  tag : Found
  pageIndex : Nat
  x : ℚ
  y : ℚ
  streamIndex : Nat
deriving DecidableEq, Repr

/-- The stream-to-page-index map of a document. -/
def streamToPageIndexOf (doc : Doc) : List (Nat × Nat) :=
  (buildPageMaps doc).streamToPageIndex

/-- The placement map of a document, computed as `findTagLocations` computes
it (source lines 670-676). -/
def placementsOf (doc : Doc) : List (Nat × Placement) :=
  findXObjectPlacements doc (buildPageMaps doc).pageObjToIndex
    (buildPageMaps doc).streamToPageObj (findXObjectMappingsPerPage doc)
    (findXObjectMappings doc)

/-- The base position of a tag-bearing stream (source lines 709-735): for a
page content stream, the first extracted show-text position; for any other
stream, its XObject placement.  The boolean is `hasValidPosition`, i.e.
`baseX > 20 || baseY > 50`. -/
def streamBase (s2i : List (Nat × Nat)) (placements : List (Nat × Placement)) (objNum : Nat)
    (chunks : List Chunk) : Nat × ℚ × ℚ × Bool :=
  match mget s2i objNum with
  | some pi =>
    match extractTagPositionsFromStream chunks with
    | r :: _ => (pi, r.x, r.y, decide (20 < r.x) || decide (50 < r.y))
    | [] => (pi, 0, 0, false)
  | none =>
    match mget placements objNum with
    | some pl => (pl.pageIndex, pl.x, pl.y, decide (20 < pl.x) || decide (50 < pl.y))
    | none => (0, 0, 0, false)

/-- The tag locations contributed by one numbered object (the body of the
stream loop of `findTagLocations`, source lines 683-757): oversized streams
are skipped, streams without tags are skipped, streams whose base position is
invalid are skipped, and otherwise every `foundTags` element is emitted at the
stream's single base position. -/
def streamLocations (s2i : List (Nat × Nat)) (placements : List (Nat × Placement))
    (o : PdfObj) : List TagLocation :=
  match o.stream with
  | none => []
  | some sd =>
    if sd.big then [] else
    let fts := foundTagsOf sd.chunks
    if fts.isEmpty then [] else
    let b := streamBase s2i placements o.objNum sd.chunks
    if b.2.2.2 then fts.map (fun ft => ⟨ft, b.1, b.2.1, b.2.2.1, o.objNum⟩) else []

/-- The source's `findTagLocations`: all locations of all streams in byte
order. -/
def findTagLocations (doc : Doc) : List TagLocation :=
  doc.objects.flatMap (streamLocations (streamToPageIndexOf doc) (placementsOf doc))

/-- The source's `Placeholder` record. -/
structure Placeholder where
  type : TagKind
  role : String
  fieldName : Option String
  originalTag : String
  pageNumber : Nat
  x : ℚ
  y : ℚ
  width : ℚ
  height : ℚ
deriving DecidableEq, Repr

/-- Conversion of one tag location into a placeholder (the loop body of
`parseTemplatePlaceholders`, source lines 840-858): unparseable tags are
skipped, page numbers are 1-based, widths are 200/100/150 by type and heights
50/20. -/
def placeholderOfLocation (loc : TagLocation) : Option Placeholder :=
  (parseFound loc.tag).map (fun parsed =>
    ⟨parsed.type, parsed.role, parsed.fieldName, foundString loc.tag, loc.pageIndex + 1,
     loc.x, loc.y,
     if parsed.type = .SIGNATURE then 200 else if parsed.type = .DATE then 100 else 150,
     if parsed.type = .SIGNATURE then 50 else 20⟩)

/-- The source's `parseTemplatePlaceholders` (engine version): one placeholder
per parseable tag location, in order. -/
def parseTemplatePlaceholders (doc : Doc) : List Placeholder :=
  (findTagLocations doc).filterMap placeholderOfLocation

/-- The engine's `getUniqueRoles` (source lines 878-886): collect the distinct
roles of every placeholder that is not a `TEXT` placeholder with the catch-all
role `any`, in first-seen order. -/
def getUniqueRoles (placeholders : List Placeholder) : List String :=
  placeholders.foldl (fun roles p =>
    if (p.type ≠ .TEXT ∨ p.role ≠ "any") ∧ p.role ∉ roles then roles ++ [p.role] else roles) []

/-- The older backend variant of `getUniqueRoles`
(`backend/src/services/pdf.service.ts` lines 87-95), which excludes every
`TEXT` placeholder. -/
def getUniqueRolesBackend (placeholders : List Placeholder) : List String :=
  placeholders.foldl (fun roles p =>
    if p.type ≠ .TEXT ∧ p.role ∉ roles then roles ++ [p.role] else roles) []

/-- JavaScript `a || b` on an optional string: an absent or empty left operand
falls through to the right one. -/
def strOr (a : Option String) (b : String) : String :=
  match a with
  | some s => if s = "" then b else s
  | none => b

/-- The value-map key built by `getReplacementInfo` (source lines 968-976):
`SIGNATURE:<role>`, `DATE:<fieldName or Date>`, `TEXT:<fieldName or role>`,
with JavaScript `||` fallbacks. -/
def tagKey (pt : ParsedTag) : String :=
  match pt.type with
  | .SIGNATURE => "SIGNATURE:" ++ pt.role
  | .DATE => "DATE:" ++ strOr pt.fieldName "Date"
  | .TEXT => "TEXT:" ++ strOr pt.fieldName pt.role

/-- The source's `getReplacementInfo`: classify the tag with `parseTagInfo`,
look its key up in the value map, and treat an empty value as missing (the
truthiness test `if (value)`). -/
def getReplacementInfo (valueMap : List (String × String)) (t : Tag) :
    Option (String × TagKind) :=
  match parseTagInfo t with
  | none => none
  | some pt =>
    match mget valueMap (tagKey pt) with
    | some v => if v = "" then none else some (v, pt.type)
    | none => none

/-- The `tjPattern` replacement of `replaceTagsWithValues` (source lines
1011-1031) for one grammar: a `(text) Tj` whose parenthesized content is
exactly one tag of that grammar and whose key has a non-empty value is
replaced — for signatures by
`q 1 0 0.2 1 0 0 cm 0 0 0.8 rg (value) Tj Q 0 0 0 rg` (italic shear plus ink
colour), for other types by `0 0 1 rg (value) Tj 0 0 0 rg`.  The source
escapes parentheses and backslashes when writing the value and the scanner
decodes those escapes when reading, so values are carried unescaped here. -/
def tjPassChunk (vm : List (String × String)) (shape : Tag → Bool) : Chunk → List Chunk
  | .tj [.tag t] =>
    if shape t then
      match getReplacementInfo vm t with
      | some (v, .SIGNATURE) =>
          [.qSave, .cm 1 0 (mkRat 2 10) 1 0 0, .rg 0 0 (mkRat 8 10), .tj [.txt v],
           .qRestore, .rg 0 0 0]
      | some (v, _) => [.rg 0 0 1, .tj [.txt v], .rg 0 0 0]
      | none => [.tj [.tag t]]
    else [.tj [.tag t]]
  | c => [c]

/-- The standalone replacement of `replaceTagsWithValues` (source lines
1033-1044) on one piece: a tag of the scanned grammar with a non-empty value
becomes its value as inert text; everything else is kept. -/
def spPiece (vm : List (String × String)) (shape : Tag → Bool) : Piece → Piece
  | .tag t =>
    if shape t then
      match getReplacementInfo vm t with
      | some (v, _) => .txt v
      | none => .tag t
    else .tag t
  | p => p

/-- The standalone replacement applied to one chunk: it rewrites raw stream
text and show-string contents alike (the source pattern runs over the whole
decompressed text). -/
def spChunk (vm : List (String × String)) (shape : Tag → Bool) : Chunk → Chunk
  | .tj ps => .tj (ps.map (spPiece vm shape))
  | .tJ parts => .tJ (parts.map (fun ps => ps.map (spPiece vm shape)))
  | .raw ps => .raw (ps.map (spPiece vm shape))
  | c => c

/-- The standalone replacement over a stream. -/
def spChunks (vm : List (String × String)) (shape : Tag → Bool)
    (chunks : List Chunk) : List Chunk :=
  chunks.map (spChunk vm shape)

/-- The `tjPattern` replacement over a stream. -/
def tjChunks (vm : List (String × String)) (shape : Tag → Bool)
    (chunks : List Chunk) : List Chunk :=
  chunks.flatMap (tjPassChunk vm shape)

/-- The in-stream replacement of `replaceTagsWithValues`: for each grammar in
source order (brace first, then bracket), the `tjPattern` pass followed by the
standalone pass. -/
def replaceInChunks (vm : List (String × String)) (chunks : List Chunk) : List Chunk :=
  spChunks vm Tag.isBracket
    (tjChunks vm Tag.isBracket (spChunks vm Tag.isBrace (tjChunks vm Tag.isBrace chunks)))

/-- The stream loop of `replaceTagsWithValues` (source lines 995-1058):
oversized payloads are skipped, payloads that fail to inflate are skipped
(`catch { continue; }` — unlike the scanner there is no literal-text fallback
here), and the rest get the in-stream replacements.  A stream in which no
replacement fires is spliced back byte-identical, so the source's
modified-flag bookkeeping does not affect the result. -/
def streamPass (vm : List (String × String)) (sd : StreamData) : StreamData :=
  if sd.big then sd
  else if !sd.compressed then sd
  else { sd with chunks := replaceInChunks vm sd.chunks }

/-- The final flat-byte pass of `replaceTagsWithValues` (source lines
1068-1078): tags that are literal in the rewritten byte buffer — i.e. inside
streams stored uncompressed — are replaced by their values (brace grammar
first, then bracket; no `Tj` styling and no size guard in this pass).
Compressed payloads, including the ones the stream pass just recompressed,
are opaque byte soup to this pass. -/
def flatPass (vm : List (String × String)) (sd : StreamData) : StreamData :=
  if sd.compressed then sd
  else { sd with chunks := spChunks vm Tag.isBracket (spChunks vm Tag.isBrace sd.chunks) }

/-- The source's `replaceTagsWithValues`: the stream pass, then the flat-byte
pass.  The two whole-buffer passes of the source touch disjoint stream
payloads (inflatable versus literal), so their composition distributes over
the streams. -/
def replaceTagsWithValues (doc : Doc) (vm : List (String × String)) : Doc :=
  { doc with objects := doc.objects.map (fun o =>
      { o with stream := o.stream.map (fun sd => flatPass vm (streamPass vm sd)) }) }

/-- The signer-supplied data of one stamp (`SignatureData` in the source). -/
structure SignatureData where
  signatureImage : Option String
  typedName : String
  signatureTypeDrawn : Bool
  textFields : Option (List (String × String))
deriving DecidableEq, Repr

/-- One stamp request (`StampConfig`); `timestampDateString` carries the
rendered `timestamp.toLocaleDateString('en-US')`. -/
structure StampConfig where
  role : String
  signatureData : SignatureData
  timestampDateString : String
deriving DecidableEq, Repr

/-- The value-map construction of `stampSignature` (source lines 1097-1121):
signature entries for the stamp's role and the fixed `signer`/`signer1`
fallbacks, date entries under `Dte1`/`Date`/`date` with the JavaScript `||`
cascade over the text fields, and one `TEXT:` entry per submitted field. -/
def buildValueMap (stamps : List StampConfig) : List (String × String) :=
  stamps.foldl (fun vm stamp =>
    let vm := mset vm ("SIGNATURE:" ++ stamp.role) stamp.signatureData.typedName
    let vm := mset vm "SIGNATURE:signer" stamp.signatureData.typedName
    let vm := mset vm "SIGNATURE:signer1" stamp.signatureData.typedName
    let tf := stamp.signatureData.textFields.getD []
    let dateValue := strOr (mget tf "Dte1") (strOr (mget tf "Date") stamp.timestampDateString)
    let vm := mset vm "DATE:Dte1" dateValue
    let vm := mset vm "DATE:Date" dateValue
    let vm := mset vm "DATE:date" dateValue
    match stamp.signatureData.textFields with
    | none => vm
    | some tfs => tfs.foldl (fun vm f => mset vm ("TEXT:" ++ f.1) f.2) vm) []

/-- The source's `stampSignature`: build the value map and rewrite the tags in
place; the placeholder list is accepted but (as in the source) not consulted.
Modelled from the spec: the closing `PDFDocument.load`/`save` normalization is
a call into the external pdf-lib library, absent from this repository's code;
per §4.6 and the §8 idempotence property ("re-saving an already-normalized
document ... must not change its Placeholder set") it is modelled as the
identity on the document structure. -/
def stampSignature (doc : Doc) (stamps : List StampConfig)
    (placeholders : List Placeholder) : Doc :=
  replaceTagsWithValues doc (buildValueMap stamps)

/-- Every tag occurrence of every stream payload of the document. -/
def docTags (doc : Doc) : List Tag :=
  doc.objects.flatMap (fun o =>
    match o.stream with
    | some sd => streamTags sd.chunks
    | none => [])

/-- The value-map key of a placeholder, as the stamper derives it from the
classified tag (`parseTemplatePlaceholders` copies `type`, `role` and
`fieldName` verbatim from the classification, so this coincides with
`tagKey` of the tag's classification). -/
def placeholderKey (p : Placeholder) : String :=
  tagKey ⟨p.type, p.role, p.fieldName⟩

/-- A minimal page object: number, `/Contents` references, `/MediaBox`. -/
def pageObj (n : Nat) (refs : List Nat) : PdfObj :=
  ⟨n, true, true, false, false, refs, [], none, none, [], none⟩

/-- A minimal stream-carrying object: inflatable, not oversized. -/
def streamObj (n : Nat) (chunks : List Chunk) : PdfObj :=
  ⟨n, false, false, false, false, [], [], none, none, [], some ⟨chunks, false, true⟩⟩

/-- The brace tag `\x7b\x7bTitleA_es_:signer1\x7d\x7d` of the spec's scenario. -/
def braceTitleA : Tag := .brace false "TitleA" "signer1"

/-- The spec's page-content scenario document: one page whose content stream
shows `(Employee: \x7b\x7bTitleA_es_:signer1\x7d\x7d) Tj` preceded by
`1 0 0 1 50 700 Tm`. -/
def docC3 : Doc :=
  ⟨[pageObj 1 [2],
    streamObj 2 [.tm 1 0 0 1 50 700, .tj [.txt "Employee: ", .tag braceTitleA]]], []⟩

/-- Variant of the scenario with a `10 20 Td` displacement between the `Tm`
and a single-show (`Tj`) occurrence. -/
def docC3td : Doc :=
  ⟨[pageObj 1 [2],
    streamObj 2 [.tm 1 0 0 1 50 700, .td 10 20, .tj [.tag braceTitleA]]], []⟩

/-- Variant of the scenario with a `10 20 Td` displacement between the `Tm`
and an array-show (`TJ`) occurrence. -/
def docC3tj : Doc :=
  ⟨[pageObj 1 [2],
    streamObj 2 [.tm 1 0 0 1 50 700, .td 10 20, .tJ [[.tag braceTitleA]]]], []⟩

/-- The bracket tag `[[SIGNATURE:manager]]` of the spec's XObject scenario. -/
def bracketSigManager : Tag := .bracket .SIGNATURE "manager"

/-- The spec's XObject scenario document: two pages, the second placing the
Form XObject `Fm1` (object 5) via `1 0 0 1 100 200 cm /Fm1 Do`; the XObject's
stream contains `[[SIGNATURE:manager]]` preceded internally by
`1 0 0 1 10 15 Tm`. -/
def docC1 : Doc :=
  ⟨[pageObj 1 [2], streamObj 2 [],
    pageObj 3 [4],
    streamObj 4 [.cm 1 0 0 1 100 200, .doDraw "Fm1"],
    streamObj 5 [.tm 1 0 0 1 10 15, .tj [.tag bracketSigManager]]],
   [[("Fm1", 5)]]⟩

/-- A document with two occurrences of the identical tag in one page content
stream, at distinct visual positions (`Tm` at (100, 700) and at (100, 600)). -/
def docC2 : Doc :=
  ⟨[pageObj 1 [2],
    streamObj 2 [.tm 1 0 0 1 100 700, .tj [.tag braceTitleA],
                 .tm 1 0 0 1 100 600, .tj [.tag braceTitleA]]], []⟩

/-- A value map whose sole entry, for the scenario placeholder's key, is the
empty string. -/
def vmEmptyVal : List (String × String) := [("TEXT:TitleA", "")]

/-- A value map carrying a non-empty value for the scenario placeholder. -/
def vmJohn : List (String × String) := [("TEXT:TitleA", "John")]

/-- A document whose single page carries the name `Fm1` in its own resources
(scoped resolution: object 5) and draws it at (30, 40), while a second,
foreign `/XObject` dictionary maps the same name to object 7. -/
def docC5 : Doc :=
  ⟨[⟨1, true, true, false, false, [2], [("Fm1", 5)], none, none, [], none⟩,
    streamObj 2 [.cm 1 0 0 1 30 40, .doDraw "Fm1"]],
   [[("Fm1", 5)], [("Fm1", 7)]]⟩

/-- The brace signature tag `\x7b\x7bSig_es_:signer1:signature\x7d\x7d`. -/
def braceSig : Tag := .brace false "Sig" "signer1:signature"

/-- A content stream showing exactly the signature tag at (100, 700). -/
def sigChunks : List Chunk := [.tm 1 0 0 1 100 700, .tj [.tag braceSig]]

/-- The signature document stored with a payload that fails to inflate. -/
def docU : Doc :=
  ⟨[pageObj 1 [2],
    ⟨2, false, false, false, false, [], [], none, none, [], some ⟨sigChunks, false, false⟩⟩], []⟩

/-- The same signature document stored with an inflatable payload. -/
def docCc : Doc :=
  ⟨[pageObj 1 [2],
    ⟨2, false, false, false, false, [], [], none, none, [], some ⟨sigChunks, false, true⟩⟩], []⟩

/-- A value map stamping the signature role. -/
def vmSig : List (String × String) := [("SIGNATURE:signer1", "Jane Smith")]

/-- A document whose only tag is the bracket text tag `[[TEXT:comment]]`. -/
def docC9 : Doc :=
  ⟨[pageObj 1 [2],
    streamObj 2 [.tm 1 0 0 1 100 700, .tj [.tag (.bracket .TEXT "comment")]]], []⟩

/-- Number of occurrences of the tag `t` among the document's streams. -/
def countTag (t : Tag) (doc : Doc) : Nat := (docTags doc).count t

/-- Set every stream's `compressed` flag according to `f` (per object number),
leaving all content untouched: the tool for stating that the scanner does not
care whether a stream inflates. -/
def setCompressed (f : Nat → Bool) (doc : Doc) : Doc :=
  { doc with objects := doc.objects.map (fun o =>
      { o with stream := o.stream.map (fun sd => { sd with compressed := f o.objNum }) }) }

/-- A content stream showing the tag `t` once, at text matrix position
(x, y). -/
def tagStreamObj (n : Nat) (t : Tag) (x y : ℚ) : PdfObj :=
  streamObj n [.tm 1 0 0 1 x y, .tj [.tag t]]

/-- One tag-bearing content stream per requested position, numbered from `k`. -/
def multiStreams (t : Tag) : Nat → List (ℚ × ℚ) → List PdfObj
  | _, [] => []
  | k, p :: ps => tagStreamObj k t p.1 p.2 :: multiStreams t (k + 1) ps

/-- A document with one page whose `/Contents` array references one
tag-bearing stream per requested position: `ps.length` occurrences of the
syntactically identical tag at the given visual positions. -/
def mkMultiDoc (t : Tag) (ps : List (ℚ × ℚ)) : Doc :=
  ⟨pageObj 1 ((List.range ps.length).map (· + 2)) :: multiStreams t 2 ps, []⟩

/-- The placeholder that parse produces for tag `t` (classified as `pt`) at
position (x, y) on page 1. -/
def phAt (t : Tag) (pt : ParsedTag) (x y : ℚ) : Placeholder :=
  ⟨pt.type, pt.role, pt.fieldName, tagString t, 1, x, y,
   if pt.type = .SIGNATURE then 200 else if pt.type = .DATE then 100 else 150,
   if pt.type = .SIGNATURE then 50 else 20⟩

/-- C3 — For every tag occurrence in a page's own content stream, the claim
states the coordinate is the last `Tm` plus all later `Td`/`TD` deltas for
both show forms.  Counterexample: for the array-show form `[...] TJ` the code
never adds the `Td`/`TD` deltas — a `10 20 Td` between `1 0 0 1 50 700 Tm`
and the tag-bearing `TJ` still yields (50, 700), not the claimed (60, 720). -/
theorem C3_counterexample :
    parseTemplatePlaceholders docC3tj =
      [⟨.TEXT, "signer1", some "TitleA", tagString braceTitleA, 1, 50, 700, 150, 20⟩] ∧
    ¬ ∃ p ∈ parseTemplatePlaceholders docC3tj, p.x = 60 ∧ p.y = 720 := by
  decide

/-- C1 — The claim states that a tag inside a Form XObject stream resolves to
the XObject's placement origin plus the local `Tm`/`Td` composition inside the
stream: `1 0 0 1 100 200 cm /Fm1 Do` on page 2 with an internal
`1 0 0 1 10 15 Tm` should give (110, 215).  Counterexample: the code uses the
placement origin alone and yields (100, 200); the internal text matrix is
never added for non-page streams. -/
theorem C1_counterexample :
    parseTemplatePlaceholders docC1 =
      [⟨.SIGNATURE, "manager", none, tagString bracketSigManager, 2, 100, 200, 200, 50⟩] ∧
    ¬ ∃ p ∈ parseTemplatePlaceholders docC1, p.x = 110 ∧ p.y = 215 := by
  decide

/-- C2 — The claim states that N occurrences of the identical tag at distinct
visual positions always yield N placeholders with distinct positions.
Counterexample: a document with the identical tag shown twice in one content
stream, under `Tm` (100, 700) and `Tm` (100, 600), yields a single placeholder
(the scanner collects only the first match of each grammar per stream). -/
theorem C2_counterexample :
    docTags docC2 = [braceTitleA, braceTitleA] ∧
    parseTemplatePlaceholders docC2 =
      [⟨.TEXT, "signer1", some "TitleA", tagString braceTitleA, 1, 100, 700, 150, 20⟩] := by
  decide

/-- C4 — The claim states that stamping with a ValueMap that contains an entry
for every placeholder key leaves no un-substituted tag, so re-parsing yields
zero placeholders.  Counterexample: a ValueMap whose entry for the only
placeholder key is the empty string — the entry exists, but the code's
truthiness test treats it as missing, the tag survives byte-for-byte, and
re-parsing returns the original non-empty placeholder list. -/
theorem C4_counterexample :
    (∀ p ∈ parseTemplatePlaceholders docC3, (mget vmEmptyVal (placeholderKey p)).isSome) ∧
    parseTemplatePlaceholders (replaceTagsWithValues docC3 vmEmptyVal) =
      parseTemplatePlaceholders docC3 ∧
    parseTemplatePlaceholders docC3 ≠ [] := by
  refine ⟨?_, by decide, by decide⟩
  decide

/-- C5 — The claim states the placement locator associates each
`cm /Name Do` with the object id the name resolves to via the per-page scoped
map (global map only as fallback).  Counterexample: the page's scoped map
resolves `Fm1` to object 5 only, yet the locator also assigns the placement to
object 7, the resolution of `Fm1` in an unrelated `/XObject` dictionary — it
resolves the name against every dictionary in the document. -/
theorem C5_counterexample :
    findXObjectMappingsPerPage docC5 = [(1, [("Fm1", 5)])] ∧
    mget (placementsOf docC5) 5 = some ⟨0, 30, 40⟩ ∧
    mget (placementsOf docC5) 7 = some ⟨0, 30, 40⟩ := by
  decide

/-- C6 — The claim states that in the stamper, a stream whose decompression
fails is treated as literal text and still rewritten like any other stream.
Counterexample: on the stream that fails to inflate the stream rewriter is a
no-op (`catch { continue; }`), so the signature tag never receives the
styled `q .. cm .. rg (value) Tj Q` rewrite it receives in the inflatable
copy of the same document; only the final flat pass substitutes it, bare. -/
theorem C6_counterexample :
    streamPass vmSig ⟨sigChunks, false, false⟩ = ⟨sigChunks, false, false⟩ ∧
    (replaceTagsWithValues docU vmSig).objects.map (fun o => o.stream.map (·.chunks)) =
      [none, some [.tm 1 0 0 1 100 700, .tj [.txt "Jane Smith"]]] ∧
    (replaceTagsWithValues docCc vmSig).objects.map (fun o => o.stream.map (·.chunks)) =
      [none, some [.tm 1 0 0 1 100 700, .qSave, .cm 1 0 (mkRat 2 10) 1 0 0,
                   .rg 0 0 (mkRat 8 10), .tj [.txt "Jane Smith"], .qRestore, .rg 0 0 0]] := by
  decide

/-- C9 — The claim states the role-derivation utility collects exactly the
distinct roles of non-TEXT placeholders, with no role contributed by a TEXT
placeholder.  Counterexample: a document whose only placeholder is the TEXT
placeholder of `[[TEXT:comment]]` (role `signer`), for which the engine's
`getUniqueRoles` returns `["signer"]` — a role contributed by a TEXT
placeholder (the code's guard only excludes TEXT placeholders whose role is
`any`, and the engine's parse assigns `signer`, never `any`). -/
theorem C9_counterexample :
    (parseTemplatePlaceholders docC9).all (fun p => p.type == .TEXT) = true ∧
    getUniqueRoles (parseTemplatePlaceholders docC9) = ["signer"] := by
  decide

/-- Helper: the coordinate addition of the embedding agrees with rational
addition. -/
theorem qadd_eq_add (a b : ℚ) : qadd a b = a + b := by
  rw [Rat.add_def, qadd, Rat.normalize_eq_mkRat]

/-- Helper: re-rooting the scanned prefix of method 1 by one chunk. -/
theorem extractM1_shift (before : List Chunk) (c : Chunk) (rest : List Chunk) (r : TagPos)
    (h : ∃ pre ps post, (before ++ [c]) ++ rest = pre ++ Chunk.tj ps :: post ∧
      (pieceTags ps).isEmpty = false ∧
      r.x = (method1Pos pre).1 ∧ r.y = (method1Pos pre).2) :
    ∃ pre ps post, before ++ c :: rest = pre ++ Chunk.tj ps :: post ∧
      (pieceTags ps).isEmpty = false ∧
      r.x = (method1Pos pre).1 ∧ r.y = (method1Pos pre).2 := by
  obtain ⟨pre, ps, post, heq, hne, hx, hy⟩ := h
  refine ⟨pre, ps, post, ?_, hne, hx, hy⟩
  have h2 : before ++ c :: rest = (before ++ [c]) ++ rest := by simp
  rw [h2, heq]

/-- Helper: every method-1 result comes from a tag-bearing `(text) Tj`
occurrence and carries `method1Pos` of the stream prefix before it. -/
theorem extractM1_sound (rest : List Chunk) : ∀ (before : List Chunk) (r : TagPos),
    r ∈ extractM1 before rest →
    ∃ pre ps post, before ++ rest = pre ++ Chunk.tj ps :: post ∧
      (pieceTags ps).isEmpty = false ∧
      r.x = (method1Pos pre).1 ∧ r.y = (method1Pos pre).2 := by
  induction rest with
  | nil =>
    intro before r h
    exact absurd h (List.not_mem_nil r)
  | cons c rest ih =>
    intro before r h
    cases c with
    | tj ps =>
      rw [show extractM1 before (Chunk.tj ps :: rest)
          = (if (!(pieceTags ps).isEmpty) = true then
              [⟨piecesText ps, (method1Pos before).1, (method1Pos before).2⟩]
            else []) ++ extractM1 (before ++ [Chunk.tj ps]) rest from rfl] at h
      rcases List.mem_append.mp h with h1 | h2
      · by_cases ht : (pieceTags ps).isEmpty = true
        · rw [if_neg (by simp [ht])] at h1
          exact absurd h1 (List.not_mem_nil r)
        · have hf : (pieceTags ps).isEmpty = false := by simpa using ht
          rw [if_pos (by simp [hf])] at h1
          obtain rfl := List.mem_singleton.mp h1
          exact ⟨before, ps, rest, rfl, hf, rfl, rfl⟩
      · exact extractM1_shift before (Chunk.tj ps) rest r
          (ih (before ++ [Chunk.tj ps]) r h2)
    | tm a b c2 d e f =>
      exact extractM1_shift before (Chunk.tm a b c2 d e f) rest r
        (ih (before ++ [Chunk.tm a b c2 d e f]) r h)
    | td tx ty =>
      exact extractM1_shift before (Chunk.td tx ty) rest r
        (ih (before ++ [Chunk.td tx ty]) r h)
    | cm a b c2 d e f =>
      exact extractM1_shift before (Chunk.cm a b c2 d e f) rest r
        (ih (before ++ [Chunk.cm a b c2 d e f]) r h)
    | qSave =>
      exact extractM1_shift before Chunk.qSave rest r (ih (before ++ [Chunk.qSave]) r h)
    | qRestore =>
      exact extractM1_shift before Chunk.qRestore rest r (ih (before ++ [Chunk.qRestore]) r h)
    | rg a b c2 =>
      exact extractM1_shift before (Chunk.rg a b c2) rest r
        (ih (before ++ [Chunk.rg a b c2]) r h)
    | doDraw n =>
      exact extractM1_shift before (Chunk.doDraw n) rest r
        (ih (before ++ [Chunk.doDraw n]) r h)
    | tJ parts =>
      exact extractM1_shift before (Chunk.tJ parts) rest r
        (ih (before ++ [Chunk.tJ parts]) r h)
    | raw ps =>
      exact extractM1_shift before (Chunk.raw ps) rest r
        (ih (before ++ [Chunk.raw ps]) r h)

/-- Helper: re-rooting the scanned prefix of method 2 by one chunk. -/
theorem extractM2_shift (before : List Chunk) (c : Chunk) (rest : List Chunk) (r : TagPos)
    (h : ∃ pre parts post, (before ++ [c]) ++ rest = pre ++ Chunk.tJ parts :: post ∧
      ((parts.map pieceTags).flatten).isEmpty = false ∧
      r.x = (m2Pos pre).1 ∧ r.y = (m2Pos pre).2) :
    ∃ pre parts post, before ++ c :: rest = pre ++ Chunk.tJ parts :: post ∧
      ((parts.map pieceTags).flatten).isEmpty = false ∧
      r.x = (m2Pos pre).1 ∧ r.y = (m2Pos pre).2 := by
  obtain ⟨pre, parts, post, heq, hne, hx, hy⟩ := h
  refine ⟨pre, parts, post, ?_, hne, hx, hy⟩
  have h2 : before ++ c :: rest = (before ++ [c]) ++ rest := by simp
  rw [h2, heq]

/-- Helper: every method-2 result comes from a tag-bearing `[...] TJ`
occurrence and carries only the last `Tm` translation of the prefix before
it. -/
theorem extractM2_sound (rest : List Chunk) :
    ∀ (acc : List TagPos) (before : List Chunk) (r : TagPos),
    r ∈ extractM2 acc before rest →
    ∃ pre parts post, before ++ rest = pre ++ Chunk.tJ parts :: post ∧
      ((parts.map pieceTags).flatten).isEmpty = false ∧
      r.x = (m2Pos pre).1 ∧ r.y = (m2Pos pre).2 := by
  induction rest with
  | nil =>
    intro acc before r h
    exact absurd h (List.not_mem_nil r)
  | cons c rest ih =>
    intro acc before r h
    cases c with
    | tJ parts =>
      rw [show extractM2 acc before (Chunk.tJ parts :: rest)
          = (if (!(parts.map pieceTags).flatten.isEmpty &&
                (acc.find? (fun q =>
                  q.text == String.join (parts.map piecesText))).isNone) = true
             then (⟨String.join (parts.map piecesText),
                     (m2Pos before).1, (m2Pos before).2⟩ : TagPos) ::
               extractM2 (acc ++ [⟨String.join (parts.map piecesText),
                   (m2Pos before).1, (m2Pos before).2⟩])
                 (before ++ [Chunk.tJ parts]) rest
             else extractM2 acc (before ++ [Chunk.tJ parts]) rest) from rfl] at h
      by_cases hc : (!(parts.map pieceTags).flatten.isEmpty &&
          (acc.find? (fun q => q.text == String.join (parts.map piecesText))).isNone) = true
      · rw [if_pos hc] at h
        rcases List.mem_cons.mp h with rfl | h2
        · have hne : ((parts.map pieceTags).flatten).isEmpty = false := by
            have h1 := (Bool.and_eq_true _ _).mp hc
            simpa using h1.1
          exact ⟨before, parts, rest, rfl, hne, rfl, rfl⟩
        · exact extractM2_shift before (Chunk.tJ parts) rest r
            (ih (acc ++ [⟨String.join (parts.map piecesText),
                (m2Pos before).1, (m2Pos before).2⟩]) (before ++ [Chunk.tJ parts]) r h2)
      · rw [if_neg hc] at h
        exact extractM2_shift before (Chunk.tJ parts) rest r
          (ih acc (before ++ [Chunk.tJ parts]) r h)
    | tm a b c2 d e f =>
      exact extractM2_shift before (Chunk.tm a b c2 d e f) rest r
        (ih acc (before ++ [Chunk.tm a b c2 d e f]) r h)
    | td tx ty =>
      exact extractM2_shift before (Chunk.td tx ty) rest r
        (ih acc (before ++ [Chunk.td tx ty]) r h)
    | cm a b c2 d e f =>
      exact extractM2_shift before (Chunk.cm a b c2 d e f) rest r
        (ih acc (before ++ [Chunk.cm a b c2 d e f]) r h)
    | qSave =>
      exact extractM2_shift before Chunk.qSave rest r (ih acc (before ++ [Chunk.qSave]) r h)
    | qRestore =>
      exact extractM2_shift before Chunk.qRestore rest r
        (ih acc (before ++ [Chunk.qRestore]) r h)
    | rg a b c2 =>
      exact extractM2_shift before (Chunk.rg a b c2) rest r
        (ih acc (before ++ [Chunk.rg a b c2]) r h)
    | doDraw n =>
      exact extractM2_shift before (Chunk.doDraw n) rest r
        (ih acc (before ++ [Chunk.doDraw n]) r h)
    | tj ps =>
      exact extractM2_shift before (Chunk.tj ps) rest r
        (ih acc (before ++ [Chunk.tj ps]) r h)
    | raw ps =>
      exact extractM2_shift before (Chunk.raw ps) rest r
        (ih acc (before ++ [Chunk.raw ps]) r h)

/-- C3 (amended) — Every coordinate extracted from a page content stream
arises from a show operator.  For a single-show `(text) Tj` occurrence the
coordinate is `method1Pos` of the prefix before it: the last preceding `Tm`
translation plus the cumulative `Td`/`TD` deltas after that `Tm` — except
that when the composed x is 0 or below 50 in magnitude and the last preceding
`cm` translation exceeds 50 in either component, the `cm` translation
replaces it.  For an array-show `[...] TJ` occurrence only the last `Tm`
translation is used (no `Td`/`TD`, no `cm`).  The spec scenario resolves to
x 50, y 700 on page 1, and its `10 20 Td` variant to (60, 720). -/
theorem C3_amended_thm :
    (∀ (chunks : List Chunk) (r : TagPos), r ∈ extractTagPositionsFromStream chunks →
      (∃ pre ps post, chunks = pre ++ Chunk.tj ps :: post ∧
        (pieceTags ps).isEmpty = false ∧
        r.x = (method1Pos pre).1 ∧ r.y = (method1Pos pre).2) ∨
      (∃ pre parts post, chunks = pre ++ Chunk.tJ parts :: post ∧
        ((parts.map pieceTags).flatten).isEmpty = false ∧
        r.x = (m2Pos pre).1 ∧ r.y = (m2Pos pre).2)) ∧
    (∀ (before : List Chunk) (e f : ℚ) (after : List Chunk),
      lastTmSplit before = some (e, f, after) → lastCm before = none →
      method1Pos before = (e + (tdSum after).1, f + (tdSum after).2)) ∧
    (∀ (before : List Chunk) (e f : ℚ) (after : List Chunk) (ce cf : ℚ),
      lastTmSplit before = some (e, f, after) → lastCm before = some (ce, cf) →
      ¬((e + (tdSum after).1 = 0 ∨ |e + (tdSum after).1| < 50) ∧ (50 < ce ∨ 50 < cf)) →
      method1Pos before = (e + (tdSum after).1, f + (tdSum after).2)) ∧
    (∀ (before : List Chunk) (e f : ℚ) (after : List Chunk) (ce cf : ℚ),
      lastTmSplit before = some (e, f, after) → lastCm before = some (ce, cf) →
      (e + (tdSum after).1 = 0 ∨ |e + (tdSum after).1| < 50) → (50 < ce ∨ 50 < cf) →
      method1Pos before = (ce, cf)) ∧
    parseTemplatePlaceholders docC3 =
      [⟨.TEXT, "signer1", some "TitleA", tagString braceTitleA, 1, 50, 700, 150, 20⟩] ∧
    parseTemplatePlaceholders docC3td =
      [⟨.TEXT, "signer1", some "TitleA", tagString braceTitleA, 1, 60, 720, 150, 20⟩] := by
  refine ⟨?_, ?_, ?_, ?_, by decide, by decide⟩
  · intro chunks r h
    rw [show extractTagPositionsFromStream chunks
        = extractM1 [] chunks ++ extractM2 (extractM1 [] chunks) [] chunks from rfl] at h
    rcases List.mem_append.mp h with h1 | h2
    · obtain ⟨pre, ps, post, heq, hne, hx, hy⟩ := extractM1_sound chunks [] r h1
      exact Or.inl ⟨pre, ps, post, by simpa using heq, hne, hx, hy⟩
    · obtain ⟨pre, parts, post, heq, hne, hx, hy⟩ :=
        extractM2_sound chunks (extractM1 [] chunks) [] r h2
      exact Or.inr ⟨pre, parts, post, by simpa using heq, hne, hx, hy⟩
  · intro before e f after h1 h2
    unfold method1Pos
    rw [h1, h2]
    simp [qadd_eq_add]
  · intro before e f after ce cf h1 h2 h3
    unfold method1Pos
    rw [h1, h2]
    simp only [qadd_eq_add]
    rw [if_neg h3]
  · intro before e f after ce cf h1 h2 h3 h4
    unfold method1Pos
    rw [h1, h2]
    simp only [qadd_eq_add]
    rw [if_pos ⟨h3, h4⟩]

/-- C3 amended witness: a `200 300 cm` before a `30 40 Tm` triggers the
override for the single-show occurrence — the position is the `cm`
translation (200, 300), not the `Tm` one. -/
theorem C3_amended_witness :
    extractTagPositionsFromStream
        [Chunk.cm 1 0 0 1 200 300, Chunk.tm 1 0 0 1 30 40, Chunk.tj [Piece.tag braceTitleA]]
      = [⟨piecesText [Piece.tag braceTitleA], 200, 300⟩] := by
  decide

/-- Helper: a valid stream base satisfies the position guard. -/
theorem streamBase_valid (s2i : List (Nat × Nat)) (pl : List (Nat × Placement)) (n : Nat)
    (chunks : List Chunk) (h : (streamBase s2i pl n chunks).2.2.2 = true) :
    20 < (streamBase s2i pl n chunks).2.1 ∨ 50 < (streamBase s2i pl n chunks).2.2.1 := by
  unfold streamBase at *
  rcases hg : mget s2i n with _ | pi
  · rcases hp : mget pl n with _ | p
    · simp [hg, hp] at h
    · simp only [hg, hp] at h ⊢
      simpa [Bool.or_eq_true, decide_eq_true_eq] using h
  · rcases he : extractTagPositionsFromStream chunks with _ | ⟨r, rest⟩
    · simp [hg, he] at h
    · simp only [hg, he] at h ⊢
      simpa [Bool.or_eq_true, decide_eq_true_eq] using h

/-- Helper: every location contributed by an object carries that object's
number, the object's single stream base position, and the base is valid. -/
theorem streamLocations_shape (s2i : List (Nat × Nat)) (pl : List (Nat × Placement))
    (o : PdfObj) (loc : TagLocation) (h : loc ∈ streamLocations s2i pl o) :
    ∃ sd, o.stream = some sd ∧ sd.big = false ∧
      loc.tag ∈ foundTagsOf sd.chunks ∧
      (streamBase s2i pl o.objNum sd.chunks).2.2.2 = true ∧
      loc.pageIndex = (streamBase s2i pl o.objNum sd.chunks).1 ∧
      loc.x = (streamBase s2i pl o.objNum sd.chunks).2.1 ∧
      loc.y = (streamBase s2i pl o.objNum sd.chunks).2.2.1 ∧
      loc.streamIndex = o.objNum := by
  unfold streamLocations at h
  rcases hs : o.stream with _ | sd
  · simp [hs] at h
  · rw [hs] at h
    by_cases hbig : sd.big
    · simp [hbig] at h
    · simp only [hbig, if_false, Bool.false_eq_true] at h
      by_cases hfts : (foundTagsOf sd.chunks).isEmpty
      · simp [hfts] at h
      · simp only [hfts, if_false, Bool.false_eq_true] at h
        by_cases hv : (streamBase s2i pl o.objNum sd.chunks).2.2.2
        · rw [if_pos hv] at h
          obtain ⟨ft, hft, rfl⟩ := List.mem_map.mp h
          exact ⟨sd, rfl, Bool.not_eq_true _ ▸ hbig, hft, hv, rfl, rfl, rfl, rfl⟩
        · simp [hv] at h

/-- Helper: a placeholder copies its coordinates from its location. -/
theorem placeholderOfLocation_xy (loc : TagLocation) (p : Placeholder)
    (h : placeholderOfLocation loc = some p) :
    p.x = loc.x ∧ p.y = loc.y ∧ p.pageNumber = loc.pageIndex + 1 := by
  unfold placeholderOfLocation at h
  rcases hp : parseFound loc.tag with _ | parsed
  · simp [hp] at h
  · rw [hp] at h
    rw [Option.map_some'] at h
    obtain rfl := Option.some_injective _ h
    exact ⟨rfl, rfl, rfl⟩

/-- C8 — A tag occurrence whose resolved coordinate lies below the validity
threshold in both axes is dropped: every placeholder returned by parse has
x above 20 or y above 50, and in particular no placeholder resolves to
(0, 0). -/
theorem C8_thm (doc : Doc) (p : Placeholder) (hp : p ∈ parseTemplatePlaceholders doc) :
    (20 < p.x ∨ 50 < p.y) ∧ ¬(p.x = 0 ∧ p.y = 0) := by
  obtain ⟨loc, hloc, hpl⟩ := List.mem_filterMap.mp hp
  obtain ⟨o, _, hmem⟩ := List.mem_flatMap.mp hloc
  obtain ⟨sd, _, _, _, hv, _, hx, hy, _⟩ := streamLocations_shape _ _ _ _ hmem
  obtain ⟨hpx, hpy, _⟩ := placeholderOfLocation_xy _ _ hpl
  have hineq := streamBase_valid _ _ o.objNum sd.chunks hv
  rw [← hx, ← hy, ← hpx, ← hpy] at hineq
  refine ⟨hineq, ?_⟩
  rintro ⟨hx0, hy0⟩
  rw [hx0, hy0] at hineq
  rcases hineq with h | h <;> norm_num at h

/-- C8 witness at the scenario document. -/
theorem C8_witness :
    (⟨.TEXT, "signer1", some "TitleA", tagString braceTitleA, 1, 50, 700, 150, 20⟩ : Placeholder)
      ∈ parseTemplatePlaceholders docC3 ∧
    ((20 : ℚ) < 50 ∨ (50 : ℚ) < 700) ∧ ¬((50 : ℚ) = 0 ∧ (700 : ℚ) = 0) :=
  ⟨by decide,
   C8_thm docC3 ⟨.TEXT, "signer1", some "TitleA", tagString braceTitleA, 1, 50, 700, 150, 20⟩
     (by decide)⟩

/-- C10 — Implicit claim: all tag occurrences found in one stream are assigned
one and the same position — a stream contributes a single (pageIndex, x, y) —
so two tags inside the same stream can never receive distinct coordinates
(stated for documents with distinct object numbers, which is what the byte
format provides). -/
theorem C10_thm (doc : Doc) (hn : (doc.objects.map PdfObj.objNum).Nodup)
    (l1 l2 : TagLocation) (h1 : l1 ∈ findTagLocations doc) (h2 : l2 ∈ findTagLocations doc)
    (hs : l1.streamIndex = l2.streamIndex) :
    l1.x = l2.x ∧ l1.y = l2.y ∧ l1.pageIndex = l2.pageIndex := by
  obtain ⟨o1, ho1, hm1⟩ := List.mem_flatMap.mp h1
  obtain ⟨o2, ho2, hm2⟩ := List.mem_flatMap.mp h2
  obtain ⟨sd1, hsd1, _, _, _, hp1, hx1, hy1, hi1⟩ := streamLocations_shape _ _ _ _ hm1
  obtain ⟨sd2, hsd2, _, _, _, hp2, hx2, hy2, hi2⟩ := streamLocations_shape _ _ _ _ hm2
  have hoo : o1 = o2 := List.inj_on_of_nodup_map hn ho1 ho2 (by rw [← hi1, ← hi2, hs])
  subst hoo
  rw [hsd1] at hsd2
  obtain rfl := Option.some_injective _ hsd2.symm
  rw [hx1, hx2, hy1, hy2, hp1, hp2]
  exact ⟨rfl, rfl, rfl⟩

/-- C10 witness: the two found items of the XObject stream of the scenario
document (the bracket tag and its capture) share position (100, 200). -/
theorem C10_witness :
    ((docC1.objects.map PdfObj.objNum).Nodup ∧
      (⟨.tag bracketSigManager, 1, 100, 200, 5⟩ : TagLocation) ∈ findTagLocations docC1 ∧
      (⟨.kindCapture .SIGNATURE, 1, 100, 200, 5⟩ : TagLocation) ∈ findTagLocations docC1) ∧
    ((100 : ℚ) = 100 ∧ (200 : ℚ) = 200 ∧ (1 : Nat) = 1) :=
  ⟨⟨by decide, by decide, by decide⟩,
   C10_thm docC1 (by decide) ⟨.tag bracketSigManager, 1, 100, 200, 5⟩
     ⟨.kindCapture .SIGNATURE, 1, 100, 200, 5⟩ (by decide) (by decide) rfl⟩

/-- Helper: membership in the role accumulator of `getUniqueRoles`. -/
theorem getUniqueRoles_go (ps : List Placeholder) :
    ∀ (acc : List String) (r : String),
      r ∈ ps.foldl (fun roles p =>
        if (p.type ≠ .TEXT ∨ p.role ≠ "any") ∧ p.role ∉ roles then roles ++ [p.role]
        else roles) acc ↔
      r ∈ acc ∨ ∃ p ∈ ps, p.role = r ∧ (p.type ≠ .TEXT ∨ p.role ≠ "any") := by
  induction ps with
  | nil => simp
  | cons p ps ih =>
    intro acc r
    rw [List.foldl_cons, ih]
    by_cases hc : (p.type ≠ TagKind.TEXT ∨ p.role ≠ "any")
    · by_cases hm : p.role ∈ acc
      · rw [if_neg (fun hh => hh.2 hm)]
        constructor
        · rintro (h | ⟨q, hq, hr, hcq⟩)
          · exact Or.inl h
          · exact Or.inr ⟨q, List.mem_cons_of_mem _ hq, hr, hcq⟩
        · rintro (h | ⟨q, hq, hr, hcq⟩)
          · exact Or.inl h
          · rcases List.mem_cons.mp hq with rfl | hq2
            · exact Or.inl (hr ▸ hm)
            · exact Or.inr ⟨q, hq2, hr, hcq⟩
      · rw [if_pos ⟨hc, hm⟩]
        constructor
        · rintro (h | ⟨q, hq, hr, hcq⟩)
          · rcases List.mem_append.mp h with h2 | h2
            · exact Or.inl h2
            · rcases List.mem_singleton.mp h2 with rfl
              exact Or.inr ⟨p, List.mem_cons_self p ps, rfl, hc⟩
          · exact Or.inr ⟨q, List.mem_cons_of_mem _ hq, hr, hcq⟩
        · rintro (h | ⟨q, hq, hr, hcq⟩)
          · exact Or.inl (List.mem_append.mpr (Or.inl h))
          · rcases List.mem_cons.mp hq with rfl | hq2
            · exact Or.inl (List.mem_append.mpr (Or.inr (by simp [← hr])))
            · exact Or.inr ⟨q, hq2, hr, hcq⟩
    · rw [if_neg (fun hh => hc hh.1)]
      constructor
      · rintro (h | ⟨q, hq, hr, hcq⟩)
        · exact Or.inl h
        · exact Or.inr ⟨q, List.mem_cons_of_mem _ hq, hr, hcq⟩
      · rintro (h | ⟨q, hq, hr, hcq⟩)
        · exact Or.inl h
        · rcases List.mem_cons.mp hq with rfl | hq2
          · exact absurd hcq hc
          · exact Or.inr ⟨q, hq2, hr, hcq⟩

/-- C9 (amended) — The engine's role-derivation utility collects exactly the
distinct roles of the placeholders that are not TEXT placeholders with the
catch-all role `any`; since the engine's parse gives TEXT placeholders the
role `signer` (bracket grammar) or the tag's own role token (brace grammar),
roles contributed by TEXT placeholders do appear in its output.  (The older
backend variant excludes all TEXT placeholders.) -/
theorem C9_amended_thm (ps : List Placeholder) (r : String) :
    r ∈ getUniqueRoles ps ↔
      ∃ p ∈ ps, p.role = r ∧ (p.type ≠ .TEXT ∨ p.role ≠ "any") := by
  rw [getUniqueRoles, getUniqueRoles_go]
  simp

/-- C1 (amended) — For every tag occurrence found in a stream that is not a
page content stream, the Placeholder's coordinate is the XObject's placement
origin alone: the `Tm`/`Td` composition inside the XObject stream is not
added. -/
theorem C1_amended_thm (doc : Doc) (loc : TagLocation) (h : loc ∈ findTagLocations doc)
    (hp : mget (streamToPageIndexOf doc) loc.streamIndex = none) :
    ∃ pl, mget (placementsOf doc) loc.streamIndex = some pl ∧
      loc.x = pl.x ∧ loc.y = pl.y ∧ loc.pageIndex = pl.pageIndex := by
  obtain ⟨o, _, hmem⟩ := List.mem_flatMap.mp h
  obtain ⟨sd, _, _, _, hv, hpi, hx, hy, hsi⟩ := streamLocations_shape _ _ _ _ hmem
  rw [hsi] at hp ⊢
  unfold streamBase at hv hpi hx hy
  rw [hp] at hv hpi hx hy
  rcases hpl : mget (placementsOf doc) o.objNum with _ | pl
  · rw [hpl] at hv; simp at hv
  · rw [hpl] at hpi hx hy
    exact ⟨pl, rfl, hx, hy, hpi⟩

/-- C1 amended witness at the XObject scenario document. -/
theorem C1_amended_witness :
    ((⟨.tag bracketSigManager, 1, 100, 200, 5⟩ : TagLocation) ∈ findTagLocations docC1 ∧
      mget (streamToPageIndexOf docC1) 5 = none) ∧
    ∃ pl, mget (placementsOf docC1) 5 = some pl ∧
      (100 : ℚ) = pl.x ∧ (200 : ℚ) = pl.y ∧ 1 = pl.pageIndex :=
  ⟨⟨by decide, by decide⟩,
   C1_amended_thm docC1 ⟨.tag bracketSigManager, 1, 100, 200, 5⟩ (by decide) (by decide)⟩

/-- Helper: an empty value map yields no replacement info. -/
theorem getReplacementInfo_nil (t : Tag) : getReplacementInfo [] t = none := by
  unfold getReplacementInfo
  cases parseTagInfo t <;> rfl

/-- Helper: the `Tj` pass is the identity under an empty value map. -/
theorem tjPassChunk_nil (shape : Tag → Bool) (c : Chunk) : tjPassChunk [] shape c = [c] := by
  cases c with
  | tj ps =>
    match ps with
    | [] => rfl
    | .txt s :: ps => rfl
    | .tag t :: p :: ps => rfl
    | [.tag t] => simp [tjPassChunk, getReplacementInfo_nil]
  | tm a b c d e f => rfl
  | td tx ty => rfl
  | cm a b c d e f => rfl
  | qSave => rfl
  | qRestore => rfl
  | rg r g b => rfl
  | doDraw n => rfl
  | tJ parts => rfl
  | raw ps => rfl

/-- Helper: the standalone pass is the identity under an empty value map. -/
theorem spPiece_nil (shape : Tag → Bool) (p : Piece) : spPiece [] shape p = p := by
  cases p with
  | txt s => rfl
  | tag t => simp [spPiece, getReplacementInfo_nil]

/-- Helper: piece lists are unchanged under an empty value map. -/
theorem map_spPiece_nil (shape : Tag → Bool) (ps : List Piece) :
    ps.map (spPiece [] shape) = ps := by
  induction ps with
  | nil => rfl
  | cons p ps ih => simp [spPiece_nil, ih]

/-- Helper: chunks are unchanged under an empty value map. -/
theorem spChunk_nil (shape : Tag → Bool) (c : Chunk) : spChunk [] shape c = c := by
  cases c <;> simp [spChunk, map_spPiece_nil]

/-- Helper: the standalone pass over a stream is the identity under an empty
value map. -/
theorem spChunks_nil (shape : Tag → Bool) (chunks : List Chunk) :
    spChunks [] shape chunks = chunks := by
  induction chunks with
  | nil => rfl
  | cons c cs ih => simp [spChunks, spChunk_nil] at ih ⊢; exact ih

/-- Helper: the `Tj` pass over a stream is the identity under an empty value
map. -/
theorem tjChunks_nil (shape : Tag → Bool) (chunks : List Chunk) :
    tjChunks [] shape chunks = chunks := by
  induction chunks with
  | nil => rfl
  | cons c cs ih =>
    simp only [tjChunks, List.flatMap_cons] at ih ⊢
    rw [tjPassChunk_nil]
    simpa using ih

/-- Helper: the whole in-stream replacement is the identity under an empty
value map. -/
theorem replaceInChunks_nil (chunks : List Chunk) : replaceInChunks [] chunks = chunks := by
  unfold replaceInChunks
  rw [tjChunks_nil, spChunks_nil, tjChunks_nil, spChunks_nil]

/-- Helper: the stream pass is the identity under an empty value map. -/
theorem streamPass_nil (sd : StreamData) : streamPass [] sd = sd := by
  unfold streamPass
  split
  · rfl
  · split
    · rfl
    · rw [replaceInChunks_nil]

/-- Helper: the flat pass is the identity under an empty value map. -/
theorem flatPass_nil (sd : StreamData) : flatPass [] sd = sd := by
  unfold flatPass
  split
  · rfl
  · rw [spChunks_nil, spChunks_nil]

/-- Helper: stamping with an empty value map returns the document unchanged. -/
theorem replaceTagsWithValues_nil (doc : Doc) : replaceTagsWithValues doc [] = doc := by
  unfold replaceTagsWithValues
  have h : ∀ o : PdfObj,
      ({ o with stream := o.stream.map (fun sd => flatPass [] (streamPass [] sd)) } : PdfObj)
        = o := by
    intro o
    rcases o with ⟨n, hc, hm, it, hp, cr, ix, rr, xr, re, st⟩
    cases st <;> simp [flatPass_nil, streamPass_nil]
  rw [List.map_congr_left (fun o _ => h o)]
  simp

/-- Helper: `streamTags` distributes over cons. -/
theorem streamTags_cons (c : Chunk) (cs : List Chunk) :
    streamTags (c :: cs) = chunkTags c ++ streamTags cs := by
  simp [streamTags]

/-- Helper: `streamTags` distributes over append. -/
theorem streamTags_append (a b : List Chunk) :
    streamTags (a ++ b) = streamTags a ++ streamTags b := by
  simp [streamTags]

/-- Helper: the standalone pass never touches occurrences of a tag without
replacement info, and removing other tags does not change their count. -/
theorem count_map_spPiece (vm : List (String × String)) (shape : Tag → Bool) (t : Tag)
    (h : getReplacementInfo vm t = none) (ps : List Piece) :
    (pieceTags (ps.map (spPiece vm shape))).count t = (pieceTags ps).count t := by
  induction ps with
  | nil => rfl
  | cons p ps ih =>
    simp only [pieceTags] at ih
    cases p with
    | txt s =>
      simp only [List.map_cons, pieceTags, List.filterMap_cons, spPiece, pieceTag]
      exact ih
    | tag u =>
      by_cases hs : shape u
      · rcases hu : getReplacementInfo vm u with _ | vk
        · simp only [List.map_cons, pieceTags, List.filterMap_cons, spPiece, hs, if_true, hu,
            pieceTag, List.count_cons, ih]
        · have hne : ¬(u = t) := fun he => by rw [he, h] at hu; exact Option.noConfusion hu
          simp only [List.map_cons, pieceTags, List.filterMap_cons, spPiece, hs, if_true, hu,
            pieceTag, List.count_cons, beq_iff_eq, hne, if_false, Nat.add_zero, ih]
      · simp only [List.map_cons, pieceTags, List.filterMap_cons, spPiece, hs,
          Bool.false_eq_true, if_false, pieceTag, List.count_cons, ih]

/-- Helper: count preservation for the standalone pass on one chunk. -/
theorem count_spChunk (vm : List (String × String)) (shape : Tag → Bool) (t : Tag)
    (h : getReplacementInfo vm t = none) (c : Chunk) :
    (chunkTags (spChunk vm shape c)).count t = (chunkTags c).count t := by
  cases c with
  | tJ parts =>
    induction parts with
    | nil => rfl
    | cons ps parts ih =>
      have e1 : chunkTags (spChunk vm shape (.tJ (ps :: parts))) =
          pieceTags (ps.map (spPiece vm shape)) ++ chunkTags (spChunk vm shape (.tJ parts)) := by
        simp [spChunk, chunkTags]
      have e2 : chunkTags (Chunk.tJ (ps :: parts)) = pieceTags ps ++ chunkTags (.tJ parts) := by
        simp [chunkTags]
      rw [e1, e2, List.count_append, List.count_append, count_map_spPiece vm shape t h, ih]
  | tj ps => simpa [spChunk, chunkTags] using count_map_spPiece vm shape t h ps
  | raw ps => simpa [spChunk, chunkTags] using count_map_spPiece vm shape t h ps
  | tm a b c d e f => rfl
  | td tx ty => rfl
  | cm a b c d e f => rfl
  | qSave => rfl
  | qRestore => rfl
  | rg r g b => rfl
  | doDraw n => rfl

/-- Helper: stream-level count preservation for the standalone pass. -/
theorem count_spChunks (vm : List (String × String)) (shape : Tag → Bool) (t : Tag)
    (h : getReplacementInfo vm t = none) (chunks : List Chunk) :
    (streamTags (spChunks vm shape chunks)).count t = (streamTags chunks).count t := by
  induction chunks with
  | nil => rfl
  | cons c cs ih =>
    have e1 : spChunks vm shape (c :: cs) = spChunk vm shape c :: spChunks vm shape cs := rfl
    rw [e1, streamTags_cons, streamTags_cons, List.count_append, List.count_append,
      count_spChunk vm shape t h, ih]

/-- Helper: the `Tj` pass removes only tags with replacement info. -/
theorem count_tjPassChunk (vm : List (String × String)) (shape : Tag → Bool) (t : Tag)
    (h : getReplacementInfo vm t = none) (c : Chunk) :
    (streamTags (tjPassChunk vm shape c)).count t = (chunkTags c).count t := by
  cases c with
  | tj ps =>
    match ps with
    | [] => rfl
    | .txt s :: ps => simp [tjPassChunk, streamTags]
    | .tag u :: p :: ps => simp [tjPassChunk, streamTags]
    | [.tag u] =>
      by_cases hs : shape u
      · rcases hu : getReplacementInfo vm u with _ | ⟨v, k⟩
        · simp [tjPassChunk, hs, hu, streamTags, chunkTags]
        · have hne : ¬(u = t) := fun he => by rw [he, h] at hu; exact Option.noConfusion hu
          cases k <;>
            simp [tjPassChunk, hs, hu, streamTags, chunkTags, pieceTags, pieceTag,
              List.count_cons, hne]
      · simp [tjPassChunk, hs, streamTags, chunkTags]
  | tm a b c d e f => rfl
  | td tx ty => rfl
  | cm a b c d e f => rfl
  | qSave => rfl
  | qRestore => rfl
  | rg r g b => rfl
  | doDraw n => rfl
  | tJ parts => simp [tjPassChunk, streamTags, chunkTags]
  | raw ps => simp [tjPassChunk, streamTags, chunkTags]

/-- Helper: stream-level count preservation for the `Tj` pass. -/
theorem count_tjChunks (vm : List (String × String)) (shape : Tag → Bool) (t : Tag)
    (h : getReplacementInfo vm t = none) (chunks : List Chunk) :
    (streamTags (tjChunks vm shape chunks)).count t = (streamTags chunks).count t := by
  induction chunks with
  | nil => rfl
  | cons c cs ih =>
    have e1 : tjChunks vm shape (c :: cs) = tjPassChunk vm shape c ++ tjChunks vm shape cs := by
      simp [tjChunks]
    rw [e1, streamTags_append, List.count_append, count_tjPassChunk vm shape t h, ih,
      streamTags_cons, List.count_append]

/-- Helper: count preservation through the full in-stream replacement. -/
theorem count_replaceInChunks (vm : List (String × String)) (t : Tag)
    (h : getReplacementInfo vm t = none) (chunks : List Chunk) :
    (streamTags (replaceInChunks vm chunks)).count t = (streamTags chunks).count t := by
  unfold replaceInChunks
  rw [count_spChunks vm _ t h, count_tjChunks vm _ t h, count_spChunks vm _ t h,
    count_tjChunks vm _ t h]

/-- Helper: count preservation through the stream pass and the flat pass. -/
theorem count_passes (vm : List (String × String)) (t : Tag)
    (h : getReplacementInfo vm t = none) (sd : StreamData) :
    (streamTags (flatPass vm (streamPass vm sd)).chunks).count t =
      (streamTags sd.chunks).count t := by
  unfold streamPass
  split
  · unfold flatPass
    split
    · rfl
    · simp only
      rw [count_spChunks vm _ t h, count_spChunks vm _ t h]
  · split
    · unfold flatPass
      split
      · rfl
      · simp only
        rw [count_spChunks vm _ t h, count_spChunks vm _ t h]
    · unfold flatPass
      split
      · simp only
        exact count_replaceInChunks vm t h sd.chunks
      · simp only
        rw [count_spChunks vm _ t h, count_spChunks vm _ t h,
          count_replaceInChunks vm t h]

/-- C7 — Stamping leaves every tag occurrence whose key is missing from the
ValueMap untouched, and stamping with an empty ValueMap is the identity on the
document, so re-parsing returns the unchanged placeholder list. -/
theorem C7_thm :
    (∀ doc : Doc, replaceTagsWithValues doc [] = doc ∧
      parseTemplatePlaceholders (replaceTagsWithValues doc []) =
        parseTemplatePlaceholders doc) ∧
    (∀ (doc : Doc) (vm : List (String × String)) (t : Tag) (pt : ParsedTag),
      parseTagInfo t = some pt → mget vm (tagKey pt) = none →
      countTag t (replaceTagsWithValues doc vm) = countTag t doc) := by
  constructor
  · intro doc
    refine ⟨replaceTagsWithValues_nil doc, ?_⟩
    rw [replaceTagsWithValues_nil doc]
  · intro doc vm t pt hpt hkey
    have h : getReplacementInfo vm t = none := by
      simp [getReplacementInfo, hpt, hkey]
    unfold countTag docTags replaceTagsWithValues
    simp only
    induction doc.objects with
    | nil => rfl
    | cons o os ih =>
      simp only [List.map_cons, List.flatMap_cons, List.count_append, ih]
      rcases ho : o.stream with _ | sd
      · simp [ho]
      · simp only [ho, Option.map_some']
        rw [count_passes vm t h]

/-- C7 witness: the empty-map identity at the scenario document, and count
preservation for the scenario tag under a value map without its key. -/
theorem C7_witness :
    (replaceTagsWithValues docC3 [] = docC3 ∧
      parseTemplatePlaceholders (replaceTagsWithValues docC3 []) =
        parseTemplatePlaceholders docC3) ∧
    (parseTagInfo braceTitleA = some ⟨.TEXT, "signer1", some "TitleA"⟩ ∧
      mget vmSig (tagKey ⟨.TEXT, "signer1", some "TitleA"⟩) = none) ∧
    countTag braceTitleA (replaceTagsWithValues docC3 vmSig) = countTag braceTitleA docC3 :=
  ⟨C7_thm.1 docC3, ⟨by decide, by decide⟩,
   C7_thm.2 docC3 vmSig braceTitleA ⟨.TEXT, "signer1", some "TitleA"⟩ (by decide) (by decide)⟩

/-- Helper: a tag surviving the standalone pass on a piece list was already
there, and if it has the scanned shape it had no replacement info. -/
theorem mem_map_spPiece (vm : List (String × String)) (shape : Tag → Bool) (t : Tag)
    (ps : List Piece) (h : t ∈ pieceTags (ps.map (spPiece vm shape))) :
    t ∈ pieceTags ps ∧ (shape t = true → getReplacementInfo vm t = none) := by
  induction ps with
  | nil => simp [pieceTags] at h
  | cons p ps ih =>
    cases p with
    | txt s =>
      simp only [List.map_cons, pieceTags, List.filterMap_cons, spPiece, pieceTag] at h ⊢
      exact ih h
    | tag u =>
      by_cases hs : shape u
      · rcases hu : getReplacementInfo vm u with _ | vk
        · simp only [List.map_cons, pieceTags, List.filterMap_cons, spPiece, hs, if_true, hu,
            pieceTag, List.mem_cons] at h ⊢
          rcases h with rfl | h
          · exact ⟨Or.inl rfl, fun _ => hu⟩
          · obtain ⟨h1, h2⟩ := ih h
            exact ⟨Or.inr h1, h2⟩
        · simp only [List.map_cons, pieceTags, List.filterMap_cons, spPiece, hs, if_true, hu,
            pieceTag, List.mem_cons] at h ⊢
          obtain ⟨h1, h2⟩ := ih h
          exact ⟨Or.inr h1, h2⟩
      · simp only [List.map_cons, pieceTags, List.filterMap_cons, spPiece, hs,
          Bool.false_eq_true, if_false, pieceTag, List.mem_cons] at h ⊢
        rcases h with rfl | h
        · exact ⟨Or.inl rfl, fun hst => absurd hst hs⟩
        · obtain ⟨h1, h2⟩ := ih h
          exact ⟨Or.inr h1, h2⟩

/-- Helper: the same survival property for the standalone pass on one chunk. -/
theorem mem_spChunk (vm : List (String × String)) (shape : Tag → Bool) (t : Tag)
    (c : Chunk) (h : t ∈ chunkTags (spChunk vm shape c)) :
    t ∈ chunkTags c ∧ (shape t = true → getReplacementInfo vm t = none) := by
  cases c with
  | tj ps => exact mem_map_spPiece vm shape t ps (by simpa [spChunk, chunkTags] using h)
  | raw ps => exact mem_map_spPiece vm shape t ps (by simpa [spChunk, chunkTags] using h)
  | tJ parts =>
    simp only [spChunk, chunkTags, List.mem_flatten, List.mem_map] at h
    obtain ⟨l, ⟨ps2, hps2, rfl⟩, hmem⟩ := h
    obtain ⟨ps, hps, rfl⟩ := hps2
    obtain ⟨h1, h2⟩ := mem_map_spPiece vm shape t ps hmem
    refine ⟨?_, h2⟩
    simp only [chunkTags, List.mem_flatten, List.mem_map]
    exact ⟨pieceTags ps, ⟨ps, hps, rfl⟩, h1⟩
  | tm a b c d e f => simp [spChunk, chunkTags] at h
  | td tx ty => simp [spChunk, chunkTags] at h
  | cm a b c d e f => simp [spChunk, chunkTags] at h
  | qSave => simp [spChunk, chunkTags] at h
  | qRestore => simp [spChunk, chunkTags] at h
  | rg r g b => simp [spChunk, chunkTags] at h
  | doDraw n => simp [spChunk, chunkTags] at h

/-- Helper: stream-level survival property for the standalone pass. -/
theorem mem_spChunks (vm : List (String × String)) (shape : Tag → Bool) (t : Tag)
    (chunks : List Chunk) (h : t ∈ streamTags (spChunks vm shape chunks)) :
    t ∈ streamTags chunks ∧ (shape t = true → getReplacementInfo vm t = none) := by
  induction chunks with
  | nil => simp [spChunks, streamTags] at h
  | cons c cs ih =>
    have e1 : spChunks vm shape (c :: cs) = spChunk vm shape c :: spChunks vm shape cs := rfl
    rw [e1, streamTags_cons] at h
    rw [streamTags_cons]
    rcases List.mem_append.mp h with h | h
    · obtain ⟨h1, h2⟩ := mem_spChunk vm shape t c h
      exact ⟨List.mem_append.mpr (Or.inl h1), h2⟩
    · obtain ⟨h1, h2⟩ := ih h
      exact ⟨List.mem_append.mpr (Or.inr h1), h2⟩

/-- Helper: the `Tj` pass only removes tags (its replacements carry none). -/
theorem mem_tjPassChunk (vm : List (String × String)) (shape : Tag → Bool) (t : Tag)
    (c : Chunk) (h : t ∈ streamTags (tjPassChunk vm shape c)) : t ∈ chunkTags c := by
  cases c with
  | tj ps =>
    match ps with
    | [] => simpa [tjPassChunk, streamTags] using h
    | .txt s :: ps => simpa [tjPassChunk, streamTags] using h
    | .tag u :: p :: ps => simpa [tjPassChunk, streamTags] using h
    | [.tag u] =>
      by_cases hs : shape u
      · rcases hu : getReplacementInfo vm u with _ | ⟨v, k⟩
        · simpa [tjPassChunk, hs, hu, streamTags] using h
        · cases k <;> simp [tjPassChunk, hs, hu, streamTags, chunkTags, pieceTags, pieceTag] at h
      · simpa [tjPassChunk, hs, streamTags] using h
  | tm a b c d e f => simpa [tjPassChunk, streamTags, chunkTags] using h
  | td tx ty => simpa [tjPassChunk, streamTags, chunkTags] using h
  | cm a b c d e f => simpa [tjPassChunk, streamTags, chunkTags] using h
  | qSave => simpa [tjPassChunk, streamTags, chunkTags] using h
  | qRestore => simpa [tjPassChunk, streamTags, chunkTags] using h
  | rg r g b => simpa [tjPassChunk, streamTags, chunkTags] using h
  | doDraw n => simpa [tjPassChunk, streamTags, chunkTags] using h
  | tJ parts => simpa [tjPassChunk, streamTags, chunkTags] using h
  | raw ps => simpa [tjPassChunk, streamTags, chunkTags] using h

/-- Helper: stream-level survival property for the `Tj` pass. -/
theorem mem_tjChunks (vm : List (String × String)) (shape : Tag → Bool) (t : Tag)
    (chunks : List Chunk) (h : t ∈ streamTags (tjChunks vm shape chunks)) :
    t ∈ streamTags chunks := by
  induction chunks with
  | nil => simp [tjChunks, streamTags] at h
  | cons c cs ih =>
    have e1 : tjChunks vm shape (c :: cs) = tjPassChunk vm shape c ++ tjChunks vm shape cs := by
      simp [tjChunks]
    rw [e1, streamTags_append] at h
    rw [streamTags_cons]
    rcases List.mem_append.mp h with h | h
    · exact List.mem_append.mpr (Or.inl (mem_tjPassChunk vm shape t c h))
    · exact List.mem_append.mpr (Or.inr (ih h))

/-- Helper: a tag surviving the whole in-stream replacement was in the stream
and has no replacement info (each grammar's standalone pass removed every tag
of its shape that had one). -/
theorem mem_replaceInChunks (vm : List (String × String)) (t : Tag) (chunks : List Chunk)
    (h : t ∈ streamTags (replaceInChunks vm chunks)) :
    t ∈ streamTags chunks ∧ getReplacementInfo vm t = none := by
  unfold replaceInChunks at h
  obtain ⟨h1, hk⟩ := mem_spChunks vm Tag.isBracket t _ h
  have h2 := mem_tjChunks vm Tag.isBracket t _ h1
  obtain ⟨h3, hb⟩ := mem_spChunks vm Tag.isBrace t _ h2
  have h4 := mem_tjChunks vm Tag.isBrace t _ h3
  refine ⟨h4, ?_⟩
  cases t with
  | brace star pre post => exact hb rfl
  | bracket k i => exact hk rfl

/-- Helper: the two passes preserve the size flag. -/
theorem passes_big (vm : List (String × String)) (sd : StreamData) :
    (flatPass vm (streamPass vm sd)).big = sd.big := by
  unfold streamPass
  split
  · unfold flatPass
    split <;> rfl
  · split
    · unfold flatPass
      split <;> rfl
    · unfold flatPass
      split <;> rfl

/-- Helper: a tag surviving both passes of the stamper was in the stream, and
if the stream is not oversized the tag had no replacement info. -/
theorem mem_passes (vm : List (String × String)) (t : Tag) (sd : StreamData)
    (h : t ∈ streamTags (flatPass vm (streamPass vm sd)).chunks) :
    t ∈ streamTags sd.chunks ∧ (sd.big = false → getReplacementInfo vm t = none) := by
  unfold streamPass at h
  by_cases hbig : sd.big
  · rw [if_pos hbig] at h
    unfold flatPass at h
    rcases hcomp : sd.compressed with _ | _
    · rw [hcomp] at h
      simp only [Bool.false_eq_true, if_false] at h
      obtain ⟨h1, hk⟩ := mem_spChunks vm Tag.isBracket t _ h
      have h2 := (mem_spChunks vm Tag.isBrace t _ h1).1
      exact ⟨h2, fun hb => absurd hbig (by rw [hb]; exact Bool.false_ne_true)⟩
    · rw [hcomp] at h
      simp only [if_true] at h
      exact ⟨h, fun hb => absurd hbig (by rw [hb]; exact Bool.false_ne_true)⟩
  · rw [if_neg hbig] at h
    rcases hcomp : sd.compressed with _ | _
    · rw [hcomp] at h
      simp only [Bool.not_false, if_true] at h
      unfold flatPass at h
      rw [hcomp] at h
      simp only [Bool.false_eq_true, if_false] at h
      obtain ⟨h1, hk⟩ := mem_spChunks vm Tag.isBracket t _ h
      obtain ⟨h2, hb⟩ := mem_spChunks vm Tag.isBrace t _ h1
      refine ⟨h2, fun _ => ?_⟩
      cases t with
      | brace star pre post => exact hb rfl
      | bracket k i => exact hk rfl
    · rw [hcomp] at h
      simp only [Bool.not_true, Bool.false_eq_true, if_false] at h
      unfold flatPass at h
      simp only [hcomp, if_true] at h
      obtain ⟨h1, h2⟩ := mem_replaceInChunks vm t sd.chunks h
      exact ⟨h1, fun _ => h2⟩

/-- Helper: every element of `foundTags` is either a tag occurring in the
stream text or a bare kind capture. -/
theorem mem_foundTagsOf (chunks : List Chunk) (ft : Found) (h : ft ∈ foundTagsOf chunks) :
    (∃ t, ft = .tag t ∧ t ∈ streamTags chunks) ∨ ∃ k, ft = .kindCapture k := by
  unfold foundTagsOf at h
  rcases List.mem_append.mp h with h | h
  · rcases hb : (streamTags chunks).find? Tag.isBrace with _ | t
    · rw [hb] at h
      simp [braceFound] at h
    · rw [hb] at h
      simp only [braceFound, List.mem_singleton] at h
      exact Or.inl ⟨t, h, List.mem_of_find?_eq_some hb⟩
  · rcases hb : (streamTags chunks).find? Tag.isBracket with _ | t
    · rw [hb] at h
      simp [bracketFound] at h
    · rw [hb] at h
      cases t with
      | brace star pre post => simp [bracketFound] at h
      | bracket k i =>
        simp only [bracketFound, List.mem_cons, List.not_mem_nil, or_false] at h
        rcases h with rfl | rfl
        · exact Or.inl ⟨.bracket k i, rfl, List.mem_of_find?_eq_some hb⟩
        · exact Or.inr ⟨k, rfl⟩

/-- C4 (amended) — Stamping with a ValueMap that has a non-empty entry for the
key of every parseable tag occurrence of the document produces output on which
re-running parse returns zero Placeholders: covered tags are substituted in
inflatable streams by the stream pass and in literal streams by the flat
pass, oversized compressed streams are skipped by parse itself, and the only
surviving occurrences are unparseable ones, which yield no placeholder. -/
theorem C4_amended_thm (doc : Doc) (vm : List (String × String))
    (hyp : ∀ t ∈ docTags doc, ∀ pt, parseTagInfo t = some pt →
      ∃ v, mget vm (tagKey pt) = some v ∧ v ≠ "") :
    parseTemplatePlaceholders (replaceTagsWithValues doc vm) = [] := by
  unfold parseTemplatePlaceholders
  rw [List.filterMap_eq_nil_iff]
  intro loc hloc
  obtain ⟨o2, ho2, hmem⟩ := List.mem_flatMap.mp hloc
  obtain ⟨sd2, hsd2, hbig2, hft, _, _, _, _, _⟩ := streamLocations_shape _ _ _ _ hmem
  obtain ⟨o, ho, rfl⟩ := List.mem_map.mp ho2
  rcases hos : o.stream with _ | sd
  · rw [hos] at hsd2
    simp at hsd2
  · rw [hos] at hsd2
    simp only [Option.map_some'] at hsd2
    obtain rfl := Option.some_injective _ hsd2.symm
    rcases mem_foundTagsOf _ _ hft with ⟨t, hftag, htm⟩ | ⟨k, hfk⟩
    · obtain ⟨htin, hinfo⟩ := mem_passes vm t sd htm
      have hbig : sd.big = false := by rw [← passes_big vm sd]; exact hbig2
      have hnone : getReplacementInfo vm t = none := hinfo hbig
      have htdoc : t ∈ docTags doc := by
        unfold docTags
        rw [List.mem_flatMap]
        refine ⟨o, ho, ?_⟩
        rw [hos]
        exact htin
      have hpt : parseTagInfo t = none := by
        rcases hpt : parseTagInfo t with _ | pt
        · rfl
        · obtain ⟨v, hv, hvne⟩ := hyp t htdoc pt hpt
          have : getReplacementInfo vm t = some (v, pt.type) := by
            simp [getReplacementInfo, hpt, hv, hvne]
          rw [this] at hnone
          exact Option.noConfusion hnone
      unfold placeholderOfLocation
      rw [hftag]
      show (parseFound (.tag t)).map _ = none
      have : parseFound (.tag t) = parseTagInfo t := rfl
      rw [this, hpt]
      rfl
    · unfold placeholderOfLocation
      rw [hfk]
      rfl

/-- C4 amended witness: the scenario document stamped with a non-empty value
for its only tag re-parses to the empty placeholder list. -/
theorem C4_amended_witness :
    parseTemplatePlaceholders (replaceTagsWithValues docC3 vmJohn) = [] := by
  refine C4_amended_thm docC3 vmJohn ?_
  intro t ht pt hpt
  have ht2 : t = braceTitleA := by
    have e : docTags docC3 = [braceTitleA] := by decide
    rw [e] at ht
    simpa using ht
  subst ht2
  have hpt2 : pt = ⟨.TEXT, "signer1", some "TitleA"⟩ := by
    have he : parseTagInfo braceTitleA = some ⟨.TEXT, "signer1", some "TitleA"⟩ := by decide
    rw [he] at hpt
    exact (Option.some_injective _ hpt).symm
  subst hpt2
  exact ⟨"John", by decide, by decide⟩

/-- Helper: `mget` after `mset` at the same key. -/
theorem mget_mset_self {κ α : Type} [DecidableEq κ] (m : List (κ × α)) (k : κ) (v : α) :
    mget (mset m k v) k = some v := by
  induction m with
  | nil => simp [mset, mget]
  | cons p m ih =>
    rcases p with ⟨a, b⟩
    by_cases hk : a = k
    · simp [mset, hk, mget]
    · simp only [mset, hk, if_false]
      simpa [mget, List.find?_cons, hk] using ih

/-- Helper: `mget` after `mset` at a different key. -/
theorem mget_mset_ne {κ α : Type} [DecidableEq κ] (m : List (κ × α)) (k k2 : κ) (v : α)
    (h : k2 ≠ k) : mget (mset m k v) k2 = mget m k2 := by
  induction m with
  | nil => simp [mset, mget, Ne.symm h]
  | cons p m ih =>
    rcases p with ⟨a, b⟩
    by_cases hk : a = k
    · subst hk
      simp [mset, mget, List.find?_cons, Ne.symm h]
    · simp only [mset, hk, if_false]
      by_cases ha : a = k2
      · subst ha
        simp [mget, List.find?_cons]
      · have hb : (a == k2) = false := by simp [ha]
        simpa [mget, List.find?_cons, hb] using ih

/-- Helper: the dictionary fold of the placement locator never drops an
existing placement. -/
theorem dictsFold_pres (n : String) (v : Placement) (dicts : List (List (String × Nat)))
    (pl0 : List (Nat × Placement)) (i : Nat) (p : Placement) (h : mget pl0 i = some p) :
    mget (dicts.foldl (fun pl dict =>
      match mget dict n with
      | some objNum => if (mget pl objNum).isSome then pl else mset pl objNum v
      | none => pl) pl0) i = some p := by
  induction dicts generalizing pl0 with
  | nil => exact h
  | cons d dicts ih =>
    rw [List.foldl_cons]
    apply ih
    rcases hd : mget d n with _ | j
    · exact h
    · simp only
      by_cases hj : (mget pl0 j).isSome
      · rw [if_pos hj]
        exact h
      · rw [if_neg hj]
        by_cases hij : i = j
        · subst hij
          rw [h] at hj
          exact absurd rfl hj
        · rw [mget_mset_ne pl0 j i v hij]
          exact h

/-- Helper: every placement produced by the dictionary fold either was there
already or is the fold's value, placed for an id some dictionary resolves. -/
theorem dictsFold_sound (n : String) (v : Placement) (dicts : List (List (String × Nat)))
    (pl0 : List (Nat × Placement)) (i : Nat) (p : Placement)
    (h : mget (dicts.foldl (fun pl dict =>
      match mget dict n with
      | some objNum => if (mget pl objNum).isSome then pl else mset pl objNum v
      | none => pl) pl0) i = some p) :
    mget pl0 i = some p ∨ (p = v ∧ ∃ d ∈ dicts, mget d n = some i) := by
  induction dicts generalizing pl0 with
  | nil => exact Or.inl h
  | cons d dicts ih =>
    rw [List.foldl_cons] at h
    rcases ih _ h with h2 | ⟨rfl, d2, hd2, hn2⟩
    · rcases hd : mget d n with _ | j
      · rw [hd] at h2
        exact Or.inl h2
      · rw [hd] at h2
        simp only at h2
        by_cases hj : (mget pl0 j).isSome
        · rw [if_pos hj] at h2
          exact Or.inl h2
        · rw [if_neg hj] at h2
          by_cases hij : i = j
          · subst hij
            rw [mget_mset_self] at h2
            obtain rfl := Option.some_injective _ h2
            exact Or.inr ⟨rfl, d, List.mem_cons_self d dicts, hd⟩
          · rw [mget_mset_ne pl0 j i v hij] at h2
            exact Or.inl h2
    · exact Or.inr ⟨rfl, d2, List.mem_cons_of_mem d hd2, hn2⟩

/-- Helper: if some dictionary resolves the name to `i`, the dictionary fold
leaves `i` placed. -/
theorem dictsFold_dom (n : String) (v : Placement) (dicts : List (List (String × Nat)))
    (pl0 : List (Nat × Placement)) (i : Nat) (hd : ∃ d ∈ dicts, mget d n = some i) :
    (mget (dicts.foldl (fun pl dict =>
      match mget dict n with
      | some objNum => if (mget pl objNum).isSome then pl else mset pl objNum v
      | none => pl) pl0) i).isSome := by
  induction dicts generalizing pl0 with
  | nil => simp at hd
  | cons d dicts ih =>
    rw [List.foldl_cons]
    obtain ⟨d2, hd2, hn2⟩ := hd
    rcases List.mem_cons.mp hd2 with rfl | hmem
    · have hstep : ∃ q, mget (match mget d2 n with
          | some objNum => if (mget pl0 objNum).isSome then pl0 else mset pl0 objNum v
          | none => pl0) i = some q := by
        rw [hn2]
        simp only
        rcases hi : mget pl0 i with _ | p
        · simp only [Option.isSome_none, Bool.false_eq_true, if_false]
          exact ⟨v, mget_mset_self pl0 i v⟩
        · simp only [Option.isSome_some, if_true]
          exact ⟨p, hi⟩
      obtain ⟨q, hq⟩ := hstep
      rw [Option.isSome_iff_exists]
      exact ⟨q, dictsFold_pres n v dicts _ i q hq⟩
    · exact ih _ ⟨d2, hmem, hn2⟩

/-- Helper: the per-operator fold of the placement locator never drops an
existing placement. -/
theorem opsFold_pres (dicts : List (List (String × Nat))) (pi : Nat)
    (ops : List (ℚ × ℚ × String)) (pl0 : List (Nat × Placement)) (i : Nat) (p : Placement)
    (h : mget pl0 i = some p) :
    mget (ops.foldl (fun pl op => dicts.foldl (fun pl dict =>
      match mget dict op.2.2 with
      | some objNum =>
          if (mget pl objNum).isSome then pl else mset pl objNum ⟨pi, op.1, op.2.1⟩
      | none => pl) pl) pl0) i = some p := by
  induction ops generalizing pl0 with
  | nil => exact h
  | cons op ops ih =>
    rw [List.foldl_cons]
    exact ih _ (dictsFold_pres op.2.2 ⟨pi, op.1, op.2.1⟩ dicts pl0 i p h)

/-- Helper: soundness of the per-operator fold: every placement is either
pre-existing or comes from one of the operators, resolved by one of the
dictionaries. -/
theorem opsFold_sound (dicts : List (List (String × Nat))) (pi : Nat)
    (ops : List (ℚ × ℚ × String)) (pl0 : List (Nat × Placement)) (i : Nat) (p : Placement)
    (h : mget (ops.foldl (fun pl op => dicts.foldl (fun pl dict =>
      match mget dict op.2.2 with
      | some objNum =>
          if (mget pl objNum).isSome then pl else mset pl objNum ⟨pi, op.1, op.2.1⟩
      | none => pl) pl) pl0) i = some p) :
    mget pl0 i = some p ∨
      ∃ op ∈ ops, p = ⟨pi, op.1, op.2.1⟩ ∧ ∃ d ∈ dicts, mget d op.2.2 = some i := by
  induction ops generalizing pl0 with
  | nil => exact Or.inl h
  | cons op ops ih =>
    rw [List.foldl_cons] at h
    rcases ih _ h with h2 | ⟨op2, hop2, hp2, hd2⟩
    · rcases dictsFold_sound op.2.2 ⟨pi, op.1, op.2.1⟩ dicts pl0 i p h2 with h3 | ⟨rfl, hd3⟩
      · exact Or.inl h3
      · exact Or.inr ⟨op, List.mem_cons_self op ops, rfl, hd3⟩
    · exact Or.inr ⟨op2, List.mem_cons_of_mem op hop2, hp2, hd2⟩

/-- Helper: completeness of the per-operator fold: an id resolvable from any
operator's name through any dictionary ends up placed. -/
theorem opsFold_dom (dicts : List (List (String × Nat))) (pi : Nat)
    (ops : List (ℚ × ℚ × String)) (pl0 : List (Nat × Placement)) (i : Nat)
    (hd : ∃ op ∈ ops, ∃ d ∈ dicts, mget d op.2.2 = some i) :
    (mget (ops.foldl (fun pl op => dicts.foldl (fun pl dict =>
      match mget dict op.2.2 with
      | some objNum =>
          if (mget pl objNum).isSome then pl else mset pl objNum ⟨pi, op.1, op.2.1⟩
      | none => pl) pl) pl0) i).isSome := by
  induction ops generalizing pl0 with
  | nil => simp at hd
  | cons op ops ih =>
    rw [List.foldl_cons]
    obtain ⟨op2, hop2, hdict⟩ := hd
    rcases List.mem_cons.mp hop2 with rfl | hmem
    · have h1 := dictsFold_dom op2.2.2 ⟨pi, op2.1, op2.2.1⟩ dicts pl0 i hdict
      rw [Option.isSome_iff_exists] at h1
      obtain ⟨q, hq⟩ := h1
      rw [Option.isSome_iff_exists]
      exact ⟨q, opsFold_pres dicts pi ops _ i q hq⟩
    · exact ih _ ⟨op2, hmem, hdict⟩

/-- Helper: the page-stream fold of the placement locator never drops an
existing placement. -/
theorem s2pFold_pres (doc : Doc) (p2i : List (Nat × Nat)) (dicts : List (List (String × Nat)))
    (s2p : List (Nat × Nat)) (pl0 : List (Nat × Placement)) (i : Nat) (p : Placement)
    (h : mget pl0 i = some p) :
    mget (s2p.foldl (fun placements pr =>
      match findObjStream doc pr.1 with
      | none => placements
      | some sd => (doOps sd.chunks).foldl (fun pl op => dicts.foldl (fun pl dict =>
          match mget dict op.2.2 with
          | some objNum =>
              if (mget pl objNum).isSome then pl
              else mset pl objNum ⟨(mget p2i pr.2).getD 0, op.1, op.2.1⟩
          | none => pl) pl) placements) pl0) i = some p := by
  induction s2p generalizing pl0 with
  | nil => exact h
  | cons pr s2p ih =>
    rw [List.foldl_cons]
    apply ih
    rcases hs : findObjStream doc pr.1 with _ | sd
    · exact h
    · exact opsFold_pres dicts ((mget p2i pr.2).getD 0) (doOps sd.chunks) pl0 i p h

/-- Helper: soundness of the page-stream fold. -/
theorem s2pFold_sound (doc : Doc) (p2i : List (Nat × Nat))
    (dicts : List (List (String × Nat))) (s2p : List (Nat × Nat))
    (pl0 : List (Nat × Placement)) (i : Nat) (p : Placement)
    (h : mget (s2p.foldl (fun placements pr =>
      match findObjStream doc pr.1 with
      | none => placements
      | some sd => (doOps sd.chunks).foldl (fun pl op => dicts.foldl (fun pl dict =>
          match mget dict op.2.2 with
          | some objNum =>
              if (mget pl objNum).isSome then pl
              else mset pl objNum ⟨(mget p2i pr.2).getD 0, op.1, op.2.1⟩
          | none => pl) pl) placements) pl0) i = some p) :
    mget pl0 i = some p ∨
      ∃ pr ∈ s2p, ∃ sd, findObjStream doc pr.1 = some sd ∧
        ∃ op ∈ doOps sd.chunks, p = ⟨(mget p2i pr.2).getD 0, op.1, op.2.1⟩ ∧
          ∃ d ∈ dicts, mget d op.2.2 = some i := by
  induction s2p generalizing pl0 with
  | nil => exact Or.inl h
  | cons pr s2p ih =>
    rw [List.foldl_cons] at h
    rcases ih _ h with h2 | ⟨pr2, hpr2, sd2, hsd2, hrest⟩
    · rcases hs : findObjStream doc pr.1 with _ | sd
      · rw [hs] at h2
        exact Or.inl h2
      · rw [hs] at h2
        simp only at h2
        rcases opsFold_sound dicts ((mget p2i pr.2).getD 0) (doOps sd.chunks) pl0 i p h2 with
          h3 | ⟨op, hop, hp, hd⟩
        · exact Or.inl h3
        · exact Or.inr ⟨pr, List.mem_cons_self pr s2p, sd, hs, op, hop, hp, hd⟩
    · exact Or.inr ⟨pr2, List.mem_cons_of_mem pr hpr2, sd2, hsd2, hrest⟩

/-- Helper: completeness of the page-stream fold. -/
theorem s2pFold_dom (doc : Doc) (p2i : List (Nat × Nat))
    (dicts : List (List (String × Nat))) (s2p : List (Nat × Nat))
    (pl0 : List (Nat × Placement)) (i : Nat)
    (hd : ∃ pr ∈ s2p, ∃ sd, findObjStream doc pr.1 = some sd ∧
      ∃ op ∈ doOps sd.chunks, ∃ d ∈ dicts, mget d op.2.2 = some i) :
    (mget (s2p.foldl (fun placements pr =>
      match findObjStream doc pr.1 with
      | none => placements
      | some sd => (doOps sd.chunks).foldl (fun pl op => dicts.foldl (fun pl dict =>
          match mget dict op.2.2 with
          | some objNum =>
              if (mget pl objNum).isSome then pl
              else mset pl objNum ⟨(mget p2i pr.2).getD 0, op.1, op.2.1⟩
          | none => pl) pl) placements) pl0) i).isSome := by
  induction s2p generalizing pl0 with
  | nil => simp at hd
  | cons pr s2p ih =>
    rw [List.foldl_cons]
    obtain ⟨pr2, hpr2, sd2, hsd2, hop⟩ := hd
    rcases List.mem_cons.mp hpr2 with rfl | hmem
    · rw [hsd2]
      simp only
      have h1 := opsFold_dom dicts ((mget p2i pr2.2).getD 0) (doOps sd2.chunks) pl0 i hop
      rw [Option.isSome_iff_exists] at h1
      obtain ⟨q, hq⟩ := h1
      rw [Option.isSome_iff_exists]
      exact ⟨q, s2pFold_pres doc p2i dicts s2p _ i q hq⟩
    · exact ih _ ⟨pr2, hmem, sd2, hsd2, hop⟩

/-- C5 (amended) — The placement locator records, for every `cm /Name Do`
pair (optionally preceded by `q`) in a page's content stream, the `cm`
translation as the placement of every object id that any `/XObject`
dictionary of the whole document maps the name to — the per-page scoped map
and the global map are accepted but never consulted — with the first
placement per id winning.  Formally: an id is placed exactly when some page
stream's `Do` operator name resolves to it through some dictionary; every
recorded placement carries the page index and `cm` translation of such an
operator; and a placement recorded over a prefix of the stream list is never
overwritten by the streams that follow (first wins). -/
theorem C5_amended_thm (doc : Doc) (p2i s2p : List (Nat × Nat))
    (pp : List (Nat × List (String × Nat))) (g : List (String × List Nat)) (i : Nat) :
    ((mget (findXObjectPlacements doc p2i s2p pp g) i).isSome ↔
      ∃ pr ∈ s2p, ∃ sd, findObjStream doc pr.1 = some sd ∧
        ∃ op ∈ doOps sd.chunks, ∃ d ∈ allXobjectDicts doc, mget d op.2.2 = some i) ∧
    (∀ p, mget (findXObjectPlacements doc p2i s2p pp g) i = some p →
      ∃ pr ∈ s2p, ∃ sd, findObjStream doc pr.1 = some sd ∧
        ∃ op ∈ doOps sd.chunks, p = ⟨(mget p2i pr.2).getD 0, op.1, op.2.1⟩ ∧
          ∃ d ∈ allXobjectDicts doc, mget d op.2.2 = some i) ∧
    (∀ (s2p2 : List (Nat × Nat)) (p : Placement),
      mget (findXObjectPlacements doc p2i s2p pp g) i = some p →
      mget (findXObjectPlacements doc p2i (s2p ++ s2p2) pp g) i = some p) := by
  have hsound : ∀ p, mget (findXObjectPlacements doc p2i s2p pp g) i = some p →
      ∃ pr ∈ s2p, ∃ sd, findObjStream doc pr.1 = some sd ∧
        ∃ op ∈ doOps sd.chunks, p = ⟨(mget p2i pr.2).getD 0, op.1, op.2.1⟩ ∧
          ∃ d ∈ allXobjectDicts doc, mget d op.2.2 = some i := by
    intro p h
    unfold findXObjectPlacements at h
    rcases s2pFold_sound doc p2i (allXobjectDicts doc) s2p [] i p h with h2 | h2
    · exact absurd h2 (by simp [mget])
    · exact h2
  refine ⟨⟨?_, ?_⟩, hsound, ?_⟩
  · intro h
    rw [Option.isSome_iff_exists] at h
    obtain ⟨p, hp⟩ := h
    obtain ⟨pr, hpr, sd, hsd, op, hop, _, hd⟩ := hsound p hp
    exact ⟨pr, hpr, sd, hsd, op, hop, hd⟩
  · intro h
    unfold findXObjectPlacements
    exact s2pFold_dom doc p2i (allXobjectDicts doc) s2p [] i h
  · intro s2p2 p h
    show mget ((s2p ++ s2p2).foldl (fun placements pr =>
      match findObjStream doc pr.1 with
      | none => placements
      | some sd => (doOps sd.chunks).foldl (fun pl op =>
          (allXobjectDicts doc).foldl (fun pl dict =>
            match mget dict op.2.2 with
            | some objNum =>
                if (mget pl objNum).isSome then pl
                else mset pl objNum ⟨(mget p2i pr.2).getD 0, op.1, op.2.1⟩
            | none => pl) pl) placements) []) i = some p
    rw [List.foldl_append]
    exact s2pFold_pres doc p2i (allXobjectDicts doc) s2p2 _ i p h

/-- C5 amended witness: at the two-dictionary document, object 7 is placed,
and its placement is the `cm` translation (30, 40) of the single draw
operator on page index 0. -/
theorem C5_amended_witness :
    (mget (findXObjectPlacements docC5 (buildPageMaps docC5).pageObjToIndex
        (buildPageMaps docC5).streamToPageObj (findXObjectMappingsPerPage docC5)
        (findXObjectMappings docC5)) 7 = some ⟨0, 30, 40⟩) ∧
    (∃ pr ∈ (buildPageMaps docC5).streamToPageObj, ∃ sd,
      findObjStream docC5 pr.1 = some sd ∧
      ∃ op ∈ doOps sd.chunks,
        (⟨0, 30, 40⟩ : Placement) =
          ⟨(mget (buildPageMaps docC5).pageObjToIndex pr.2).getD 0, op.1, op.2.1⟩ ∧
        ∃ d ∈ allXobjectDicts docC5, mget d op.2.2 = some 7) ∧
    mget (findXObjectPlacements docC5 (buildPageMaps docC5).pageObjToIndex
        ((buildPageMaps docC5).streamToPageObj ++ [(99, 1)]) (findXObjectMappingsPerPage docC5)
        (findXObjectMappings docC5)) 7 = some ⟨0, 30, 40⟩ :=
  ⟨by decide,
   (C5_amended_thm docC5 (buildPageMaps docC5).pageObjToIndex
      (buildPageMaps docC5).streamToPageObj (findXObjectMappingsPerPage docC5)
      (findXObjectMappings docC5) 7).2.1 ⟨0, 30, 40⟩ (by decide),
   (C5_amended_thm docC5 (buildPageMaps docC5).pageObjToIndex
      (buildPageMaps docC5).streamToPageObj (findXObjectMappingsPerPage docC5)
      (findXObjectMappings docC5) 7).2.2 [(99, 1)] ⟨0, 30, 40⟩ (by decide)⟩

/-- Helper: changing compression flags does not change the page maps. -/
theorem buildPageMaps_setCompressed (f : Nat → Bool) (doc : Doc) :
    buildPageMaps (setCompressed f doc) = buildPageMaps doc := by
  unfold buildPageMaps setCompressed
  rw [List.filter_map, List.map_map]
  rfl

/-- Helper: object lookup after changing compression flags. -/
theorem findObj_setCompressed (f : Nat → Bool) (doc : Doc) (n : Nat) :
    findObj (setCompressed f doc) n = (findObj doc n).map (fun o =>
      { o with stream := o.stream.map (fun sd => { sd with compressed := f o.objNum }) }) := by
  unfold findObj setCompressed
  rw [List.find?_map]
  rfl

/-- Helper: stream lookup after changing compression flags keeps the content
and size guard, changing only the flag. -/
theorem findObjStream_setCompressed (f : Nat → Bool) (doc : Doc) (n : Nat) :
    findObjStream (setCompressed f doc) n =
      (findObjStream doc n).map (fun sd => { sd with compressed := f n }) := by
  unfold findObjStream
  rw [findObj_setCompressed]
  rcases ho : findObj doc n with _ | o
  · rfl
  · have hn : o.objNum = n := by
      unfold findObj at ho
      have := List.find?_some ho
      simpa using this
    simp only [Option.map_some', Option.some_bind]
    rw [hn]

/-- Helper: the per-page scoped map ignores compression flags. -/
theorem perPage_setCompressed (f : Nat → Bool) (doc : Doc) :
    findXObjectMappingsPerPage (setCompressed f doc) = findXObjectMappingsPerPage doc := by
  unfold findXObjectMappingsPerPage
  show List.foldl _ [] ((setCompressed f doc).objects) = _
  have he : (setCompressed f doc).objects = doc.objects.map (fun o =>
      { o with stream := o.stream.map (fun sd => { sd with compressed := f o.objNum }) }) := rfl
  rw [he, List.foldl_map]
  apply List.foldl_ext
  intro per o _
  simp only
  rcases o.resourcesRef with _ | rn
  · rfl
  · simp only [findObj_setCompressed]
    rcases findObj doc rn with _ | res
    · rfl
    · simp only [Option.map_some']
      rcases res.xobjectRef with _ | xn
      · rfl
      · simp only [findObj_setCompressed]
        rcases findObj doc xn with _ | xo
        · rfl
        · simp only [Option.map_some']

/-- Helper: the placement locator ignores compression flags (the decompression
fallback feeds it the same content either way). -/
theorem placements_setCompressed (f : Nat → Bool) (doc : Doc) (p2i s2p : List (Nat × Nat))
    (pp : List (Nat × List (String × Nat))) (g : List (String × List Nat)) :
    findXObjectPlacements (setCompressed f doc) p2i s2p pp g =
      findXObjectPlacements doc p2i s2p pp g := by
  unfold findXObjectPlacements
  apply List.foldl_ext
  intro placements pr _
  simp only [findObjStream_setCompressed]
  rcases findObjStream doc pr.1 with _ | sd
  · rfl
  · simp only [Option.map_some']
    rfl

/-- Helper: a single stream's locations ignore the compression flag. -/
theorem streamLocations_setCompressed (s2i : List (Nat × Nat))
    (pl : List (Nat × Placement)) (f : Nat → Bool) (o : PdfObj) :
    streamLocations s2i pl
      { o with stream := o.stream.map (fun sd => { sd with compressed := f o.objNum }) } =
    streamLocations s2i pl o := by
  unfold streamLocations
  rcases o.stream with _ | sd <;> rfl

/-- C6 (amended) — The scanner treats a stream that fails to inflate exactly
like a decompressed one (its literal bytes are searched), so parse is
insensitive to which streams inflate; the stamper's stream-rewrite pass, by
contrast, skips non-inflating streams (`catch { continue; }`), leaving their
tags to the bare final flat pass (exhibited by the counterexample). -/
theorem C6_amended_thm (doc : Doc) (f : Nat → Bool) :
    parseTemplatePlaceholders (setCompressed f doc) = parseTemplatePlaceholders doc := by
  unfold parseTemplatePlaceholders findTagLocations
  have hs2i : streamToPageIndexOf (setCompressed f doc) = streamToPageIndexOf doc := by
    unfold streamToPageIndexOf
    rw [buildPageMaps_setCompressed]
  have hpl : placementsOf (setCompressed f doc) = placementsOf doc := by
    unfold placementsOf
    rw [buildPageMaps_setCompressed, perPage_setCompressed, placements_setCompressed]
    rfl
  rw [hs2i, hpl]
  have he : (setCompressed f doc).objects = doc.objects.map (fun o =>
      { o with stream := o.stream.map (fun sd => { sd with compressed := f o.objNum }) }) := rfl
  rw [he, List.flatMap_map]
  exact congrArg (List.filterMap placeholderOfLocation)
    (congrArg doc.objects.flatMap
      (funext (fun o => streamLocations_setCompressed (streamToPageIndexOf doc) (placementsOf doc) f o)))


/-- Helper: a key set by any pass of a constant-value `mset` fold is mapped to
that value. -/
theorem mget_foldl_mset {κ α : Type} [DecidableEq κ] (v : α) :
    ∀ (l : List κ) (acc : List (κ × α)) (k : κ),
      k ∈ l ∨ mget acc k = some v →
      mget (l.foldl (fun m r => mset m r v) acc) k = some v
  | [], acc, k, h => by
      rcases h with h | h
      · exact absurd h (List.not_mem_nil k)
      · exact h
  | a :: l, acc, k, h => by
      show mget (l.foldl (fun m r => mset m r v) (mset acc a v)) k = some v
      apply mget_foldl_mset v l (mset acc a v) k
      by_cases hk : k = a
      · right
        rw [hk]
        exact mget_mset_self acc a v
      · rcases h with h | h
        · rcases List.mem_cons.mp h with h2 | h2
          · exact absurd h2 hk
          · exact Or.inl h2
        · exact Or.inr ((mget_mset_ne acc a k v hk).trans h)

/-- Helper: no stream object of the batch passes the page-classification
filter of `buildPageMaps`. -/
theorem multiStreams_filter (t : Tag) :
    ∀ (ps : List (ℚ × ℚ)) (k : Nat),
      (multiStreams t k ps).filter (fun o => isPageObj o && !o.contentsRefs.isEmpty) = []
  | [], _ => rfl
  | _ :: ps', k => multiStreams_filter t ps' (k + 1)

/-- Helper: the stream-to-page-index map of the batch document sends every
content stream of the single page to page index 0. -/
theorem s2i_multi_mget (t : Tag) (ps : List (ℚ × ℚ)) (i : Nat) (hi : i < ps.length) :
    mget (streamToPageIndexOf (mkMultiDoc t ps)) (2 + i) = some 0 := by
  have hne : ((List.range ps.length).map (· + 2)).isEmpty = false := by
    rcases ps with _ | ⟨p, ps'⟩
    · exact absurd hi (by simp)
    · simp [List.range_succ]
  have hs : streamToPageIndexOf (mkMultiDoc t ps) =
      ((List.range ps.length).map (· + 2)).foldl (fun m r => mset m r 0) [] := by
    unfold streamToPageIndexOf buildPageMaps
    rw [show (mkMultiDoc t ps).objects
        = pageObj 1 ((List.range ps.length).map (· + 2)) :: multiStreams t 2 ps from rfl]
    rw [List.filter_cons_of_pos, multiStreams_filter]
    · rfl
    · show (isPageObj (pageObj 1 ((List.range ps.length).map (· + 2))) &&
        !((List.range ps.length).map (· + 2)).isEmpty) = true
      rw [hne]
      rfl
  rw [hs]
  apply mget_foldl_mset
  exact Or.inl (List.mem_map.mpr ⟨i, List.mem_range.mpr hi, by omega⟩)

/-- Helper: the stream loop body on a plain content stream, with the base
still symbolic. -/
theorem streamLocations_streamObj (s2i : List (Nat × Nat)) (pl : List (Nat × Placement))
    (k : Nat) (chunks : List Chunk) :
    streamLocations s2i pl (streamObj k chunks)
      = if (foundTagsOf chunks).isEmpty then []
        else if (streamBase s2i pl k chunks).2.2.2 = true
        then (foundTagsOf chunks).map (fun ft =>
          ⟨ft, (streamBase s2i pl k chunks).1, (streamBase s2i pl k chunks).2.1,
           (streamBase s2i pl k chunks).2.2.1, k⟩)
        else [] := rfl

/-- Helper: one tag-bearing content stream at a valid position contributes
exactly one placeholder, at its `Tm` translation. -/
theorem streamLocations_tagStreamObj (s2i : List (Nat × Nat)) (pl : List (Nat × Placement))
    (t : Tag) (pt : ParsedTag) (k : Nat) (x y : ℚ)
    (hpt : parseTag t = some pt) (hk : mget s2i k = some 0)
    (hxy : 20 < x ∨ 50 < y) :
    (streamLocations s2i pl (tagStreamObj k t x y)).filterMap placeholderOfLocation
      = [phAt t pt x y] := by
  have hq : ∀ a : ℚ, qadd a 0 = a := fun a => by rw [qadd_eq_add, add_zero]
  have hb2 : (decide (20 < x) || decide (50 < y)) = true := by
    rcases hxy with h | h
    · simp [h]
    · simp [h]
  have hbase : streamBase s2i pl k [Chunk.tm 1 0 0 1 x y, Chunk.tj [Piece.tag t]]
      = (0, x, y, true) := by
    unfold streamBase
    rw [hk]
    show (0, qadd x 0, qadd y 0, decide (20 < qadd x 0) || decide (50 < qadd y 0))
      = ((0 : Nat), x, y, true)
    rw [hq, hq, hb2]
  show (streamLocations s2i pl
      (streamObj k [Chunk.tm 1 0 0 1 x y, Chunk.tj [Piece.tag t]])).filterMap
      placeholderOfLocation = [phAt t pt x y]
  rw [streamLocations_streamObj, hbase]
  cases t with
  | brace st pre post =>
    have hpol : placeholderOfLocation ⟨Found.tag (Tag.brace st pre post), 0, x, y, k⟩
        = some (phAt (Tag.brace st pre post) pt x y) := by
      simp only [placeholderOfLocation, parseFound, hpt, Option.map_some']
      rfl
    show List.filterMap placeholderOfLocation
        [(⟨Found.tag (Tag.brace st pre post), 0, x, y, k⟩ : TagLocation)]
      = [phAt (Tag.brace st pre post) pt x y]
    simp only [List.filterMap_cons, hpol, List.filterMap_nil]
  | bracket bk bi =>
    have hpol : placeholderOfLocation ⟨Found.tag (Tag.bracket bk bi), 0, x, y, k⟩
        = some (phAt (Tag.bracket bk bi) pt x y) := by
      simp only [placeholderOfLocation, parseFound, hpt, Option.map_some']
      rfl
    have hpol2 : placeholderOfLocation ⟨Found.kindCapture bk, 0, x, y, k⟩
        = (none : Option Placeholder) := rfl
    show List.filterMap placeholderOfLocation
        [(⟨Found.tag (Tag.bracket bk bi), 0, x, y, k⟩ : TagLocation),
         (⟨Found.kindCapture bk, 0, x, y, k⟩ : TagLocation)]
      = [phAt (Tag.bracket bk bi) pt x y]
    simp only [List.filterMap_cons, hpol, hpol2, List.filterMap_nil]

/-- Helper: the batch streams contribute exactly one placeholder per
position, in order. -/
theorem multiLocs (t : Tag) (pt : ParsedTag) (s2i : List (Nat × Nat))
    (pl : List (Nat × Placement)) (hpt : parseTag t = some pt) :
    ∀ (ps : List (ℚ × ℚ)) (k : Nat),
      (∀ p ∈ ps, 20 < p.1 ∨ 50 < p.2) →
      (∀ i, i < ps.length → mget s2i (k + i) = some 0) →
      ((multiStreams t k ps).flatMap (streamLocations s2i pl)).filterMap
          placeholderOfLocation
        = ps.map (fun p => phAt t pt p.1 p.2)
  | [], _, _, _ => rfl
  | p :: ps', k, hpos, hmg => by
      rw [show multiStreams t k (p :: ps')
          = tagStreamObj k t p.1 p.2 :: multiStreams t (k + 1) ps' from rfl,
        List.flatMap_cons, List.filterMap_append]
      rw [streamLocations_tagStreamObj s2i pl t pt k p.1 p.2 hpt
        (by have := hmg 0 (Nat.succ_pos ps'.length); simpa using this)
        (hpos p (List.mem_cons_self p ps'))]
      rw [multiLocs t pt s2i pl hpt ps' (k + 1)
        (fun q hq => hpos q (List.mem_cons_of_mem p hq))
        (fun i hi => by
          have h2 : k + 1 + i = k + (i + 1) := by omega
          rw [h2]
          exact hmg (i + 1) (Nat.succ_lt_succ hi))]
      rfl

/-- C2 (amended) — The claim counts one placeholder per syntactically
identical tag occurrence; that holds only when the occurrences sit in separate
content streams (within one stream, the non-global `String.match` keeps only
the first — see the counterexample).  Amended: a template whose single page
carries N content streams, each showing the same tag `t` once at a valid
position, parses to exactly N placeholders, one per occurrence, each carrying
its own stream coordinates. -/
theorem C2_amended_thm (t : Tag) (pt : ParsedTag) (ps : List (ℚ × ℚ))
    (hpt : parseTag t = some pt)
    (hpos : ∀ p ∈ ps, 20 < p.1 ∨ 50 < p.2) :
    parseTemplatePlaceholders (mkMultiDoc t ps) = ps.map (fun p => phAt t pt p.1 p.2) := by
  unfold parseTemplatePlaceholders findTagLocations
  rw [show (mkMultiDoc t ps).objects
      = pageObj 1 ((List.range ps.length).map (· + 2)) :: multiStreams t 2 ps from rfl,
    List.flatMap_cons, List.filterMap_append]
  rw [multiLocs t pt (streamToPageIndexOf (mkMultiDoc t ps))
    (placementsOf (mkMultiDoc t ps)) hpt ps 2 hpos
    (fun i hi => s2i_multi_mget t ps i hi)]
  rfl

/-- C2 amended witness: two identical brace tags in two streams at (100, 700)
and (30, 40) parse to exactly two placeholders. -/
theorem C2_amended_witness :
    parseTemplatePlaceholders (mkMultiDoc braceTitleA [(100, 700), (30, 40)])
      = [phAt braceTitleA ⟨TagKind.TEXT, "signer1", some "TitleA"⟩ 100 700,
         phAt braceTitleA ⟨TagKind.TEXT, "signer1", some "TitleA"⟩ 30 40] :=
  C2_amended_thm braceTitleA ⟨TagKind.TEXT, "signer1", some "TitleA"⟩
    [(100, 700), (30, 40)] (by decide) (by decide)

end AHS
